import Mathlib

/-!
Shallow embedding of the PurgeMessages Vencord plugin core
(src/purgeMessages.tsx, the current plugin source): the discovery
pagination engine (discoverMessages), the range boundary extractor
(discoverRangeMessages), the deletion executor (executePurge), the retry
helper wrapped around page fetches, and the synchronous per-channel state
transition of the vpurge slash-command handler (execute).

Transport model: a run interacts with the remote list endpoint through a
scripted trace of fetch outcomes, consumed one entry per fetch call.  An
entry (some batch) is a successful page (possibly empty); none is a fetch
whose retry budget was exhausted (for a main page fetch) or that threw
(for a verification fetch; those exceptions are caught by the source).
The shouldStop flag can only change through concurrent cancellation, so a
single modelled run sees it as a constant stop parameter, checked at the
same program points where the source checks shouldStop.  Sleeps and log
lines are timing/observability effects with no influence on the data flow
and are not part of the state; the retry helper's sleeps are modelled
explicitly by retryFetch, which is the per-fetch refinement of the trace
entries consumed here.
-/

namespace PurgeMessages

/-- A record fetched from the API (interface Message).  The author field
    models the runtime access pattern of the source, which always reads
    msg.author?.id, so a missing author is representable. -/
structure Message where
  id : String
  author : Option String
  deriving DecidableEq, Repr

/-- const BATCH_SIZE = 100, the page size requested from the list endpoint. -/
def BATCH_SIZE : Nat := 100

/-- const MAX_CONSECUTIVE_ERRORS = 3. -/
def MAX_CONSECUTIVE_ERRORS : Nat := 3

/-- Outcome of one fetch call in a scripted transport trace. -/
abbrev FetchResult := Option (List Message)

/-- The author filter test (!userId || msg.author?.id === userId). -/
def authorMatches (userId : Option String) (m : Message) : Bool :=
  match userId with
  | none => true
  | some u => m.author == some u

/-- JS truthiness of the limit break (if (limit && messages.length >= limit)):
    a zero limit is falsy and behaves like no limit at all. -/
def limitReached (limit : Option Nat) (len : Nat) : Bool :=
  match limit with
  | none => false
  | some n => !(n == 0) && decide (n ≤ len)

/-- The verification refetch loop (for verifyAttempt in 0..<n): fetch again
    at the same cursor up to n times, stopping at the first nonempty
    successful page; failed or empty attempts are tolerated and the next
    attempt is made.  Returns that page (if any) together with the rest of
    the transport trace; an exhausted trace behaves as empty pages. -/
def verifyScan : List FetchResult → Nat → Option (List Message) × List FetchResult
  | rest, 0 => (none, rest)
  | [], _ + 1 => (none, [])
  | r :: rest, n + 1 =>
    match r with
    | some b => if b.isEmpty then verifyScan rest n else (some b, rest)
    | none => verifyScan rest n

/-- Loop state of a discoverMessages run without boundaries.  The progress
    field records the arguments of the onProgress calls made so far. -/
structure DState where
  messages : List Message
  seen : List String
  lastMessageId : Option String
  consecutiveErrors : Nat
  emptyBatchCount : Nat
  lastReportedCount : Nat
  progress : List Nat
  deriving DecidableEq, Repr

/-- Initial state of the discoverMessages while-loop. -/
def DState.init : DState := ⟨[], [], none, 0, 0, 0, []⟩

/-- Per-record consumption loop of discoverMessages (for (const msg of
    batch)): in-loop cancellation check, dedup against the per-call seen
    set, author filter, count-limit break.  The Bool of the result is true
    when the cancellation check returned from the whole function. -/
def procMsgs (stop : Bool) (userId : Option String) (limit : Option Nat) :
    List Message → List Message → List String → List Message × List String × Bool
  | [], msgs, seen => (msgs, seen, false)
  | m :: ms, msgs, seen =>
    if stop then (msgs, seen, true)
    else if m.id ∈ seen then procMsgs stop userId limit ms msgs seen
    else if authorMatches userId m then
      if limitReached limit (msgs ++ [m]).length then (msgs ++ [m], m.id :: seen, false)
      else procMsgs stop userId limit ms (msgs ++ [m]) (m.id :: seen)
    else procMsgs stop userId limit ms msgs (m.id :: seen)

/-- Result of the batch-acquisition phase of one while-iteration: break out
    of the loop, continue with the next iteration, or consume a batch. -/
inductive PageStep (σ : Type) where
  | halt (st : σ)
  | again (st : σ)
  | proc (st : σ) (batch : List Message) (rest : List FetchResult)

/-- Batch acquisition of one discoverMessages iteration: take the outcome of
    the retried page fetch, apply the consecutive-failure budget
    (MAX_CONSECUTIVE_ERRORS) and the empty-batch tolerance
    (MAX_EMPTY_BATCHES = 3) with its verification refetch (only attempted
    when a cursor exists), yielding a batch to consume, a continue, or a
    break.  consecutiveErrors is reset on any successful fetch. -/
def acquirePage (st : DState) (r : FetchResult) (rest : List FetchResult) :
    PageStep DState :=
  match r with
  | none =>
    let ce := st.consecutiveErrors + 1
    if MAX_CONSECUTIVE_ERRORS ≤ ce then .halt { st with consecutiveErrors := ce }
    else .again { st with consecutiveErrors := ce }
  | some batch =>
    let st := { st with consecutiveErrors := 0 }
    if batch.isEmpty then
      let ebc := st.emptyBatchCount + 1
      if 3 ≤ ebc then
        if st.lastMessageId.isSome then
          match verifyScan rest 3 with
          | (some vb, rest') => .proc { st with emptyBatchCount := 0 } vb rest'
          | (none, _) => .halt { st with emptyBatchCount := ebc }
        else .halt { st with emptyBatchCount := ebc }
      else .again { st with emptyBatchCount := ebc }
    else .proc { st with emptyBatchCount := 0 } batch rest

/-- The onProgress report made after a page was consumed, fired only when
    the running count changed since the last report. -/
def reportProgress (hasProgress : Bool) (st1 : DState) : DState :=
  if hasProgress && !(st1.messages.length == st1.lastReportedCount) then
    { st1 with progress := st1.progress ++ [st1.messages.length],
               lastReportedCount := st1.messages.length }
  else st1

/-- The tail of one discoverMessages iteration after its batch has been
    consumed into st1: the progress report, the cursor advance to the
    oldest id of the page guarded by the non-advancing-cursor break, the
    short-page verification refetch (whose found page is not consumed — it
    only rules out the end of history), and the count-limit break.  The
    second component is none when the while-loop breaks here, or the
    remaining transport trace for the next iteration. -/
def afterBatch (limit : Option Nat) (hasProgress : Bool) (st1 : DState)
    (batch : List Message) (rest' : List FetchResult) :
    DState × Option (List FetchResult) :=
  match batch.getLast? with
  | none => (reportProgress hasProgress st1, none)
  | some lastMsg =>
    if (reportProgress hasProgress st1).lastMessageId = some lastMsg.id then
      (reportProgress hasProgress st1, none)
    else if batch.length < BATCH_SIZE then
      match verifyScan rest' 3 with
      | (none, _) =>
        ({ reportProgress hasProgress st1 with lastMessageId := some lastMsg.id }, none)
      | (some _, rest'') =>
        if limitReached limit st1.messages.length then
          ({ reportProgress hasProgress st1 with lastMessageId := some lastMsg.id }, none)
        else
          ({ reportProgress hasProgress st1 with lastMessageId := some lastMsg.id },
           some rest'')
    else
      if limitReached limit st1.messages.length then
        ({ reportProgress hasProgress st1 with lastMessageId := some lastMsg.id }, none)
      else
        ({ reportProgress hasProgress st1 with lastMessageId := some lastMsg.id },
         some rest')

/-- The while-loop of discoverMessages, fuel-indexed (the wrapper discoverRun
    supplies enough fuel for any trace).  Per iteration, in source order:
    cancellation check, count-limit check, page acquisition (acquirePage),
    per-record consumption (procMsgs, whose in-loop cancellation check
    returns from the whole function), then the iteration tail (afterBatch). -/
def discoverLoop (stop : Bool) (userId : Option String) (limit : Option Nat)
    (hasProgress : Bool) : Nat → DState → List FetchResult → DState
  | 0, st, _ => st
  | fuel + 1, st, trace =>
    if stop then st
    else if limitReached limit st.messages.length then st
    else
      match trace with
      | [] => st
      | r :: rest =>
        match acquirePage st r rest with
        | .halt st' => st'
        | .again st' => discoverLoop stop userId limit hasProgress fuel st' rest
        | .proc st' batch rest' =>
          match procMsgs stop userId limit batch st'.messages st'.seen with
          | (msgs', seen', returned) =>
            if returned then { st' with messages := msgs', seen := seen' }
            else
              match afterBatch limit hasProgress
                  { st' with messages := msgs', seen := seen' } batch rest' with
              | (st3, none) => st3
              | (st3, some rest'') =>
                discoverLoop stop userId limit hasProgress fuel st3 rest''

/-- Loop state of a discoverRangeMessages run. -/
structure RState where
  messages : List Message
  seen : List String
  lastMessageId : Option String
  collecting : Bool
  foundBoundary : Bool
  emptyBatchCount : Nat
  deriving DecidableEq, Repr

/-- Initial range extractor state: let collecting = afterId && !beforeId. -/
def RState.init (afterId beforeId : Option String) : RState :=
  ⟨[], [], none, afterId.isSome && beforeId.isNone, false, 0⟩

/-- Per-record loop of discoverRangeMessages: in-loop cancellation break,
    dedup, then the boundary state machine in source order — the after-only
    boundary hit (break), the before-only pre-boundary scan (continue), the
    range activation at the before boundary (continue) and deactivation at
    the after boundary (break), and finally collection of the record when
    collecting and the author filter passes.  The cursor advances to every
    processed record's id. -/
def procRange (stop : Bool) (userId afterId beforeId : Option String) :
    List Message → RState → RState
  | [], st => st
  | m :: ms, st =>
    if stop then st
    else if m.id ∈ st.seen then procRange stop userId afterId beforeId ms st
    else if afterId.isSome ∧ beforeId = none ∧ afterId = some m.id then
      { st with seen := m.id :: st.seen, foundBoundary := true, collecting := false,
                lastMessageId := some m.id }
    else if beforeId.isSome ∧ afterId = none ∧ st.foundBoundary = false then
      if beforeId = some m.id then
        procRange stop userId afterId beforeId ms
          { st with seen := m.id :: st.seen, collecting := true, foundBoundary := true,
                    lastMessageId := some m.id }
      else
        procRange stop userId afterId beforeId ms
          { st with seen := m.id :: st.seen, lastMessageId := some m.id }
    else if afterId.isSome ∧ beforeId.isSome ∧ beforeId = some m.id then
      procRange stop userId afterId beforeId ms
        { st with seen := m.id :: st.seen, collecting := true, foundBoundary := true,
                  lastMessageId := some m.id }
    else if afterId.isSome ∧ beforeId.isSome ∧ afterId = some m.id then
      { st with seen := m.id :: st.seen, collecting := false, foundBoundary := true,
                lastMessageId := some m.id }
    else if st.collecting && authorMatches userId m then
      procRange stop userId afterId beforeId ms
        { st with seen := m.id :: st.seen, messages := st.messages ++ [m],
                  lastMessageId := some m.id }
    else
      procRange stop userId afterId beforeId ms
        { st with seen := m.id :: st.seen, lastMessageId := some m.id }

/-- Batch acquisition of one discoverRangeMessages iteration: a failed
    (retry-exhausted) fetch breaks the loop; the empty-batch tolerance and
    its verification refetch are identical to the plain engine. -/
def rangeAcquire (st : RState) (r : FetchResult) (rest : List FetchResult) :
    PageStep RState :=
  match r with
  | none => .halt st
  | some batch =>
    if batch.isEmpty then
      let ebc := st.emptyBatchCount + 1
      if 3 ≤ ebc then
        if st.lastMessageId.isSome then
          match verifyScan rest 3 with
          | (some vb, rest') => .proc { st with emptyBatchCount := 0 } vb rest'
          | (none, _) => .halt { st with emptyBatchCount := ebc }
        else .halt { st with emptyBatchCount := ebc }
      else .again { st with emptyBatchCount := ebc }
    else .proc { st with emptyBatchCount := 0 } batch rest

/-- The tail of one discoverRangeMessages iteration after its batch has been
    consumed into st1: the three boundary termination checks, then the
    short-page verification refetch.  The second component is none when the
    while-loop breaks here, or the remaining trace for the next iteration. -/
def afterRangeBatch (afterId beforeId : Option String) (st1 : RState)
    (batch : List Message) (rest' : List FetchResult) :
    RState × Option (List FetchResult) :=
  if afterId.isSome ∧ st1.foundBoundary = true ∧ st1.collecting = false then (st1, none)
  else if afterId.isSome ∧ beforeId.isSome ∧ st1.foundBoundary = true ∧
      st1.collecting = false then (st1, none)
  else if beforeId.isSome ∧ afterId = none ∧ st1.foundBoundary = false ∧
      batch.length < BATCH_SIZE then (st1, none)
  else if batch.length < BATCH_SIZE then
    match verifyScan rest' 3 with
    | (none, _) => (st1, none)
    | (some _, rest'') => (st1, some rest'')
  else (st1, some rest')

/-- The while-loop of discoverRangeMessages, fuel-indexed (the wrapper
    rangeRun supplies enough fuel for any trace).  Per iteration:
    cancellation check, acquisition (rangeAcquire, where a retry-exhausted
    fetch breaks the loop), the per-record boundary machine (procRange),
    then the iteration tail (afterRangeBatch). -/
def rangeLoop (stop : Bool) (userId afterId beforeId : Option String) :
    Nat → RState → List FetchResult → RState
  | 0, st, _ => st
  | fuel + 1, st, trace =>
    if stop then st
    else
      match trace with
      | [] => st
      | r :: rest =>
        match rangeAcquire st r rest with
        | .halt st' => st'
        | .again st' => rangeLoop stop userId afterId beforeId fuel st' rest
        | .proc st' batch rest' =>
          match afterRangeBatch afterId beforeId
              (procRange stop userId afterId beforeId batch st') batch rest' with
          | (st1, none) => st1
          | (st1, some rest'') => rangeLoop stop userId afterId beforeId fuel st1 rest''

/-- discoverMessages' while-loop run with sufficient fuel for its trace. -/
def discoverRun (stop : Bool) (userId : Option String) (limit : Option Nat)
    (hasProgress : Bool) (trace : List FetchResult) : DState :=
  discoverLoop stop userId limit hasProgress (trace.length + 1) DState.init trace

/-- discoverRangeMessages' while-loop run with sufficient fuel for its trace. -/
def rangeRun (stop : Bool) (userId afterId beforeId : Option String)
    (trace : List FetchResult) : RState :=
  rangeLoop stop userId afterId beforeId (trace.length + 1)
    (RState.init afterId beforeId) trace

/-- async function discoverRangeMessages(channelId, {userId, afterId,
    beforeId}): the extractor returns its collected record list. -/
def discoverRangeMessages (stop : Bool) (userId afterId beforeId : Option String)
    (trace : List FetchResult) : List Message :=
  (rangeRun stop userId afterId beforeId trace).messages

/-- Observable outcome of a discovery run: the returned record list and the
    sequence of onProgress notifications. -/
structure DiscoverResult where
  messages : List Message
  progress : List Nat
  deriving DecidableEq, Repr

/-- async function discoverMessages(channelId, options): returns immediately
    when cancelled, dispatches to discoverRangeMessages when afterId or
    beforeId is set (passing only userId and the two boundaries), and
    otherwise runs the plain pagination loop. -/
def discoverMessages (stop : Bool) (userId afterId beforeId : Option String)
    (limit : Option Nat) (hasProgress : Bool) (trace : List FetchResult) :
    DiscoverResult :=
  if stop then ⟨[], []⟩
  else if afterId.isSome || beforeId.isSome then
    ⟨discoverRangeMessages stop userId afterId beforeId trace, []⟩
  else
    let fin := discoverRun stop userId limit hasProgress trace
    ⟨fin.messages, fin.progress⟩

/-- interface ActivePurge (the per-channel PurgeState). -/
structure ActivePurge where
  stop : Bool
  deleted : Nat
  failed : Nat
  deriving DecidableEq, Repr

/-- The counts returned by executePurge plus the ids actually passed to the
    delete endpoint (RestAPI.del), in call order. -/
structure PurgeResult where
  deleted : Nat
  failed : Nat
  deleteCalls : List String
  deriving DecidableEq, Repr

/-- The record loop of executePurge: cancellation check before each record,
    the excludeIds skip, the ownership/permission skip, then the delete
    call, whose success (counted in deleted) or failure (counted in failed,
    processing continues) is decided by the transport oracle deleteOk.
    The live mirroring into the PurgeState and the inter-deletion sleep
    have no effect on the returned counts and are not part of the state. -/
def executePurgeLoop (stopFlag canDeleteOthers : Bool) (excludeIds : List String)
    (currentUserId : String) (deleteOk : String → Bool) :
    List Message → Nat → Nat → List String → PurgeResult
  | [], deleted, failed, calls => ⟨deleted, failed, calls⟩
  | m :: ms, deleted, failed, calls =>
    if stopFlag then ⟨deleted, failed, calls⟩
    else if m.id ∈ excludeIds then
      executePurgeLoop stopFlag canDeleteOthers excludeIds currentUserId deleteOk
        ms deleted failed calls
    else if !(m.author == some currentUserId) && !canDeleteOthers then
      executePurgeLoop stopFlag canDeleteOthers excludeIds currentUserId deleteOk
        ms deleted failed calls
    else if deleteOk m.id then
      executePurgeLoop stopFlag canDeleteOthers excludeIds currentUserId deleteOk
        ms (deleted + 1) failed (calls ++ [m.id])
    else
      executePurgeLoop stopFlag canDeleteOthers excludeIds currentUserId deleteOk
        ms deleted (failed + 1) (calls ++ [m.id])

/-- async function executePurge(channelId, messages, canDeleteOthers,
    excludeIds): zero counts when no PurgeState exists for the channel,
    otherwise the serial deletion loop.  An absent excludeIds set behaves
    as the empty list (excludeIds?.has is falsy). -/
def executePurge (purge : Option ActivePurge) (msgs : List Message)
    (canDeleteOthers : Bool) (excludeIds : List String) (currentUserId : String)
    (deleteOk : String → Bool) : PurgeResult :=
  match purge with
  | none => ⟨0, 0, []⟩
  | some p =>
    executePurgeLoop p.stop canDeleteOthers excludeIds currentUserId deleteOk
      msgs 0 0 []

/-- interface PendingConfirmation. -/
structure PendingConfirmation where
  count : Nat
  userId : Option String
  modeIsUser : Bool
  excludeIds : List String
  deriving DecidableEq, Repr

/-- The three per-channel state maps, restricted to one channel: the
    activePurges, activeScans and pendingConfirmations entries. -/
structure ChannelCtx where
  purge : Option ActivePurge
  scan : Option Bool
  pending : Option PendingConfirmation
  deriving DecidableEq, Repr

/-- The vpurge subcommands. -/
inductive Subcommand where
  | confirm | self | user | any | after | before
  deriving DecidableEq, Repr

/-- Synchronous outcome of one execute invocation for one channel. -/
inductive ExecOutcome where
  /-- "No pending confirmation found ..." user error. -/
  | noPendingError
  /-- "A purge operation is already in progress in this channel ..." error. -/
  | inProgressError
  /-- confirm accepted: a fresh PurgeState was created and the re-discovery
      plus deletion run of the stored confirmation was started. -/
  | startedConfirmedPurge (count : Nat)
  /-- the handler proceeded into the subcommand-specific logic that follows
      the purge-in-progress gate (outside this transition model). -/
  | proceeded
  deriving DecidableEq, Repr

/-- The synchronous state transition of the execute slash-command handler on
    one channel's state: the full confirm branch (look up the pending
    confirmation, report a user error when absent, otherwise consume it,
    reject when a PurgeState already exists, otherwise create the fresh
    PurgeState and start the confirmed run), and for every other subcommand
    the purge-in-progress rejection gate that precedes all
    subcommand-specific logic. -/
def executeCommand (sub : Subcommand) (ctx : ChannelCtx) : ChannelCtx × ExecOutcome :=
  if sub = .confirm then
    match ctx.pending with
    | none => (ctx, .noPendingError)
    | some confirmation =>
      let ctx := { ctx with pending := none }
      if ctx.purge.isSome then (ctx, .inProgressError)
      else ({ ctx with purge := some ⟨false, 0, 0⟩ },
            .startedConfirmedPurge confirmation.count)
  else
    if ctx.purge.isSome then (ctx, .inProgressError)
    else (ctx, .proceeded)

/-- Outcome of one attempt inside the page-fetch retry loop: a successful
    batch, or an error with its HTTP status and optional retry_after field
    (in seconds, as the source multiplies it by 1000). -/
inductive FetchOutcome where
  | ok (batch : List Message)
  | err (status : Nat) (retryAfterField : Option Nat)
  deriving DecidableEq, Repr

/-- JS (x || d): a missing or zero (falsy) field falls back to the default. -/
def jsOrDefault (v : Option Nat) (d : Nat) : Nat :=
  match v with
  | some n => if n = 0 then d else n
  | none => d

/-- The backoff delay computed in the retry catch block: on a rate-limit
    error (status 429), max(retryAfter * 1000, 2000 * (retry + 1)) with
    retryAfter = (error.retry_after || 1000); on any other error,
    1000 * 2 ^ retry. -/
def retryDelay (status : Nat) (retryAfterField : Option Nat) (retry : Nat) : Nat :=
  if status = 429 then
    max (jsOrDefault retryAfterField 1000 * 1000) (2000 * (retry + 1))
  else 1000 * 2 ^ retry

/-- Result of the retry loop around one page fetch: the successful batch if
    any, the sleeps performed between attempts, and the attempts made. -/
structure RetryResult where
  batch : Option (List Message)
  sleeps : List Nat
  attempts : Nat
  deriving DecidableEq, Repr

/-- for (let retry = 0; retry < maxAttempts; retry++) around
    fetchMessageBatch, from attempt index retry on: a success breaks out,
    an error sleeps retryDelay and tries again. -/
def retryFetchGo (maxAttempts : Nat) : List FetchOutcome → Nat → RetryResult
  | [], _ => ⟨none, [], 0⟩
  | o :: os, retry =>
    if maxAttempts ≤ retry then ⟨none, [], 0⟩
    else
      match o with
      | .ok b => ⟨some b, [], 1⟩
      | .err s rAfter =>
        ⟨(retryFetchGo maxAttempts os (retry + 1)).batch,
         retryDelay s rAfter retry :: (retryFetchGo maxAttempts os (retry + 1)).sleeps,
         (retryFetchGo maxAttempts os (retry + 1)).attempts + 1⟩

/-- The 5-attempt retry loop around one discovery page fetch, run against a
    scripted list of attempt outcomes. -/
def retryFetch (outcomes : List FetchOutcome) : RetryResult :=
  retryFetchGo 5 outcomes 0

/-! ### Helper lemmas about the building blocks -/

theorem verifyScan_snd_subset :
    ∀ (t : List FetchResult) (n : Nat), ∀ x ∈ (verifyScan t n).2, x ∈ t := by
  intro t
  induction t with
  | nil => intro n x hx; cases n <;> simp [verifyScan] at hx
  | cons r rest ih =>
    intro n x hx
    cases n with
    | zero => simpa [verifyScan] using hx
    | succ n =>
      cases r with
      | none => exact List.mem_cons_of_mem _ (ih n x (by simpa [verifyScan] using hx))
      | some b =>
        by_cases hb : b.isEmpty
        · simp only [verifyScan, hb, if_true] at hx
          exact List.mem_cons_of_mem _ (ih n x hx)
        · simp only [verifyScan, hb, if_false] at hx
          exact List.mem_cons_of_mem _ hx

theorem verifyScan_fst_mem :
    ∀ (t : List FetchResult) (n : Nat) (vb : List Message),
      (verifyScan t n).1 = some vb → some vb ∈ t := by
  intro t
  induction t with
  | nil => intro n vb h; cases n <;> simp [verifyScan] at h
  | cons r rest ih =>
    intro n vb h
    cases n with
    | zero => simp [verifyScan] at h
    | succ n =>
      cases r with
      | none => exact List.mem_cons_of_mem _ (ih n vb (by simpa [verifyScan] using h))
      | some b =>
        by_cases hb : b.isEmpty
        · simp only [verifyScan, hb, if_true] at h
          exact List.mem_cons_of_mem _ (ih n vb h)
        · simp only [verifyScan, hb, if_false] at h
          cases h
          exact List.mem_cons_self _ _

theorem verifyScan_consumes_le :
    ∀ (t : List FetchResult) (n : Nat), t.length ≤ (verifyScan t n).2.length + n := by
  intro t
  induction t with
  | nil => intro n; cases n <;> simp [verifyScan]
  | cons r rest ih =>
    intro n
    cases n with
    | zero => simp [verifyScan]
    | succ n =>
      cases r with
      | none =>
        have := ih n
        simpa [verifyScan, Nat.succ_le_succ_iff] using Nat.le_trans (Nat.succ_le_succ this) (by omega)
      | some b =>
        by_cases hb : b.isEmpty
        · have := ih n
          simp only [verifyScan, hb, if_true, List.length_cons]
          omega
        · simp [verifyScan, hb]

/-- procMsgs with the cancellation flag clear never triggers the in-loop
    whole-function return. -/
theorem procMsgs_not_returned (userId : Option String) (limit : Option Nat) :
    ∀ (ms msgs : List Message) (seen : List String),
      (procMsgs false userId limit ms msgs seen).2.2 = false := by
  intro ms
  induction ms with
  | nil => intro msgs seen; rfl
  | cons m ms ih =>
    intro msgs seen
    rw [procMsgs]
    split
    · simp_all
    · split
      · exact ih _ _
      · split
        · split
          · rfl
          · exact ih _ _
        · exact ih _ _

/-! ### C5, C6 — the per-channel state machine of the command handler -/

/-- C5 counterexample: a confirm request issued while a PurgeState exists for
    the channel is rejected with the operation-already-in-progress signal,
    but it does NOT leave the per-channel state unchanged — the
    PendingConfirmation is consumed before the in-progress check runs. -/
theorem C5_counterexample :
    (executeCommand .confirm
        ⟨some ⟨false, 0, 0⟩, none, some ⟨3, none, false, []⟩⟩).2
      = .inProgressError
    ∧ (executeCommand .confirm
        ⟨some ⟨false, 0, 0⟩, none, some ⟨3, none, false, []⟩⟩).1
      ≠ ⟨some ⟨false, 0, 0⟩, none, some ⟨3, none, false, []⟩⟩ := by
  decide

/-- C5 (amended): while a PurgeState exists for the channel, every
    non-confirm subcommand is rejected with the operation-already-in-progress
    signal and leaves all per-channel state unchanged; the confirm subcommand
    is also rejected and starts nothing, but when a PendingConfirmation
    exists it is consumed before the rejection (and when none exists the
    rejection is the no-pending-confirmation user error instead). -/
theorem C5_mutual_exclusion :
    (∀ (sub : Subcommand) (ctx : ChannelCtx), sub ≠ .confirm → ctx.purge.isSome →
        executeCommand sub ctx = (ctx, .inProgressError))
    ∧ (∀ (ctx : ChannelCtx) (c : PendingConfirmation), ctx.purge.isSome →
        ctx.pending = some c →
        executeCommand .confirm ctx = ({ ctx with pending := none }, .inProgressError))
    ∧ (∀ ctx : ChannelCtx, ctx.purge.isSome → ctx.pending = none →
        executeCommand .confirm ctx = (ctx, .noPendingError)) := by
  refine ⟨?_, ?_, ?_⟩
  · intro sub ctx hsub hp
    simp [executeCommand, hsub, hp]
  · intro ctx c hp hpend
    simp [executeCommand, hpend, hp]
  · intro ctx hp hpend
    simp [executeCommand, hpend]

theorem C5_mutual_exclusion_witness :
    executeCommand .self ⟨some ⟨false, 0, 0⟩, none, none⟩
      = (⟨some ⟨false, 0, 0⟩, none, none⟩, .inProgressError)
    ∧ executeCommand .confirm ⟨some ⟨false, 0, 0⟩, none, some ⟨2, none, false, []⟩⟩
      = (⟨some ⟨false, 0, 0⟩, none, none⟩, .inProgressError)
    ∧ executeCommand .confirm ⟨some ⟨false, 0, 0⟩, none, none⟩
      = (⟨some ⟨false, 0, 0⟩, none, none⟩, .noPendingError) :=
  ⟨C5_mutual_exclusion.1 .self ⟨some ⟨false, 0, 0⟩, none, none⟩ (by decide) rfl,
   C5_mutual_exclusion.2.1 ⟨some ⟨false, 0, 0⟩, none, some ⟨2, none, false, []⟩⟩
     ⟨2, none, false, []⟩ rfl rfl,
   C5_mutual_exclusion.2.2 ⟨some ⟨false, 0, 0⟩, none, none⟩ rfl rfl⟩

/-- C6: with a PendingConfirmation present and no active purge, the first
    confirm consumes the pending state and starts the deletion run (creating
    the fresh PurgeState); a second confirm — whether issued while that run
    is still active or after it has completed and cleared the PurgeState —
    finds no pending confirmation, reports the user error, starts no second
    run and creates no PurgeState, leaving the state unchanged. -/
theorem C6_confirm_idempotence (ctx : ChannelCtx) (c : PendingConfirmation)
    (hpend : ctx.pending = some c) (hpurge : ctx.purge = none) :
    (executeCommand .confirm ctx).2 = .startedConfirmedPurge c.count
    ∧ (executeCommand .confirm ctx).1.pending = none
    ∧ (executeCommand .confirm ctx).1.purge = some ⟨false, 0, 0⟩
    ∧ executeCommand .confirm (executeCommand .confirm ctx).1
        = ((executeCommand .confirm ctx).1, .noPendingError)
    ∧ executeCommand .confirm { (executeCommand .confirm ctx).1 with purge := none }
        = ({ (executeCommand .confirm ctx).1 with purge := none }, .noPendingError) := by
  simp [executeCommand, hpend, hpurge]

theorem C6_confirm_idempotence_witness :
    (executeCommand .confirm ⟨none, none, some ⟨7, some "u", false, ["x"]⟩⟩).2
      = .startedConfirmedPurge 7
    ∧ (executeCommand .confirm ⟨none, none, some ⟨7, some "u", false, ["x"]⟩⟩).1.pending
      = none
    ∧ (executeCommand .confirm ⟨none, none, some ⟨7, some "u", false, ["x"]⟩⟩).1.purge
      = some ⟨false, 0, 0⟩
    ∧ executeCommand .confirm
        (executeCommand .confirm ⟨none, none, some ⟨7, some "u", false, ["x"]⟩⟩).1
      = ((executeCommand .confirm ⟨none, none, some ⟨7, some "u", false, ["x"]⟩⟩).1,
         .noPendingError)
    ∧ executeCommand .confirm
        { (executeCommand .confirm ⟨none, none, some ⟨7, some "u", false, ["x"]⟩⟩).1
          with purge := none }
      = ({ (executeCommand .confirm ⟨none, none, some ⟨7, some "u", false, ["x"]⟩⟩).1
           with purge := none }, .noPendingError) :=
  C6_confirm_idempotence ⟨none, none, some ⟨7, some "u", false, ["x"]⟩⟩
    ⟨7, some "u", false, ["x"]⟩ rfl rfl

/-! ### C7 — the deletion executor respects exclusions and accounts for
    every record -/

theorem executePurgeLoop_excluded (canDeleteOthers : Bool) (X currentUserId : String)
    (deleteOk : String → Bool) :
    ∀ (msgs : List Message) (d f : Nat) (calls : List String),
      (∀ m ∈ msgs, m.id ≠ X → m.author = some currentUserId ∨ canDeleteOthers = true) →
      (executePurgeLoop false canDeleteOthers [X] currentUserId deleteOk
          msgs d f calls).deleted
        + (executePurgeLoop false canDeleteOthers [X] currentUserId deleteOk
            msgs d f calls).failed
        + (msgs.filter (fun m => m.id = X)).length
        = d + f + msgs.length
      ∧ (X ∉ calls →
          X ∉ (executePurgeLoop false canDeleteOthers [X] currentUserId deleteOk
              msgs d f calls).deleteCalls) := by
  intro msgs
  induction msgs with
  | nil => intro d f calls _; simp [executePurgeLoop]
  | cons m ms ih =>
    intro d f calls helig
    have htail : ∀ x ∈ ms, x.id ≠ X →
        x.author = some currentUserId ∨ canDeleteOthers = true :=
      fun x hx h => helig x (List.mem_cons_of_mem _ hx) h
    by_cases hX : m.id = X
    · have hmem : m.id ∈ [X] := by simp [hX]
      have hrec := ih d f calls htail
      rw [executePurgeLoop]
      rw [if_neg (by simp : ¬(false = true)), if_pos hmem]
      refine ⟨?_, hrec.2⟩
      have h1 := hrec.1
      have hfil : ((m :: ms).filter (fun x => x.id = X)).length
          = (ms.filter (fun x => x.id = X)).length + 1 := by
        simp [List.filter_cons, hX]
      rw [hfil]
      simp only [List.length_cons]
      omega
    · have hmem : m.id ∉ [X] := by simp [hX]
      have helig' : m.author = some currentUserId ∨ canDeleteOthers = true :=
        helig m (List.mem_cons_self _ _) hX
      have hskip : (!(m.author == some currentUserId) && !canDeleteOthers) = false := by
        rcases helig' with h | h
        · simp [h]
        · simp [h]
      have hfil : ((m :: ms).filter (fun x => x.id = X)).length
          = (ms.filter (fun x => x.id = X)).length := by
        simp [List.filter_cons, hX]
      rw [executePurgeLoop]
      rw [if_neg (by simp : ¬(false = true)), if_neg hmem, hskip,
        if_neg (by simp : ¬(false = true))]
      by_cases hdel : deleteOk m.id = true
      · rw [if_pos hdel]
        have hrec := ih (d + 1) f (calls ++ [m.id]) htail
        refine ⟨?_, fun hc => hrec.2 ?_⟩
        · have h1 := hrec.1
          rw [hfil]
          simp only [List.length_cons]
          omega
        · simp only [List.mem_append, List.mem_singleton]
          rintro (h | h)
          · exact hc h
          · exact hX h.symm
      · rw [if_neg hdel]
        have hrec := ih d (f + 1) (calls ++ [m.id]) htail
        refine ⟨?_, fun hc => hrec.2 ?_⟩
        · have h1 := hrec.1
          rw [hfil]
          simp only [List.length_cons]
          omega
        · simp only [List.mem_append, List.mem_singleton]
          rintro (h | h)
          · exact hc h
          · exact hX h.symm

/-- C7: running the deletion executor with an active non-cancelled
    PurgeState over a record list in which exactly one record carries id X,
    with excludedIds = {X} and every other record eligible for deletion
    (own message, or deletion of others allowed): X is never passed to the
    delete call, and deletedCount + failedCount + 1 equals the length of
    the record list. -/
theorem C7_exclusion_respected (p : ActivePurge) (msgs : List Message)
    (canDeleteOthers : Bool) (X currentUserId : String) (deleteOk : String → Bool)
    (hstop : p.stop = false)
    (hX : (msgs.filter (fun m => m.id = X)).length = 1)
    (helig : ∀ m ∈ msgs, m.id ≠ X →
      m.author = some currentUserId ∨ canDeleteOthers = true) :
    X ∉ (executePurge (some p) msgs canDeleteOthers [X] currentUserId
        deleteOk).deleteCalls
    ∧ (executePurge (some p) msgs canDeleteOthers [X] currentUserId
        deleteOk).deleted
      + (executePurge (some p) msgs canDeleteOthers [X] currentUserId
          deleteOk).failed + 1
      = msgs.length := by
  have hmain := executePurgeLoop_excluded canDeleteOthers X currentUserId deleteOk
    msgs 0 0 [] helig
  have hunf : executePurge (some p) msgs canDeleteOthers [X] currentUserId deleteOk
      = executePurgeLoop false canDeleteOthers [X] currentUserId deleteOk msgs 0 0 [] := by
    simp [executePurge, hstop]
  rw [hunf]
  refine ⟨hmain.2 (by simp), ?_⟩
  have h1 := hmain.1
  omega

theorem C7_exclusion_respected_witness :
    "7" ∉ (executePurge (some ⟨false, 0, 0⟩)
        [⟨"9", some "a"⟩, ⟨"7", some "b"⟩, ⟨"5", some "a"⟩] true ["7"] "a"
        (fun i => i ≠ "9")).deleteCalls
    ∧ (executePurge (some ⟨false, 0, 0⟩)
        [⟨"9", some "a"⟩, ⟨"7", some "b"⟩, ⟨"5", some "a"⟩] true ["7"] "a"
        (fun i => i ≠ "9")).deleted
      + (executePurge (some ⟨false, 0, 0⟩)
          [⟨"9", some "a"⟩, ⟨"7", some "b"⟩, ⟨"5", some "a"⟩] true ["7"] "a"
          (fun i => i ≠ "9")).failed + 1
      = ([⟨"9", some "a"⟩, ⟨"7", some "b"⟩, ⟨"5", some "a"⟩] : List Message).length :=
  C7_exclusion_respected ⟨false, 0, 0⟩
    [⟨"9", some "a"⟩, ⟨"7", some "b"⟩, ⟨"5", some "a"⟩] true "7" "a"
    (fun i => i ≠ "9") rfl (by decide) (by decide)

/-! ### C8 — retry budget and backoff formula -/

theorem retryFetchGo_attempts_le (maxA : Nat) :
    ∀ (outcomes : List FetchOutcome) (retry : Nat),
      (retryFetchGo maxA outcomes retry).attempts ≤ maxA - retry := by
  intro outcomes
  induction outcomes with
  | nil => intro retry; simp [retryFetchGo]
  | cons o os ih =>
    intro retry
    simp only [retryFetchGo]
    split
    · simp
    · rename_i hr
      cases o with
      | ok b => simp; omega
      | err s r =>
        have := ih (retry + 1)
        simp only
        omega

theorem retryFetchGo_sleeps (maxA : Nat) :
    ∀ (i : Nat) (outcomes : List FetchOutcome) (retry s : Nat) (rAfter : Option Nat),
      retry + i < maxA →
      (∀ j, j < i → ∃ s' r', outcomes.get? j = some (.err s' r')) →
      outcomes.get? i = some (.err s rAfter) →
      (retryFetchGo maxA outcomes retry).sleeps.get? i
        = some (retryDelay s rAfter (retry + i)) := by
  intro i
  induction i with
  | zero =>
    intro outcomes retry s r hlt hpre hi
    cases outcomes with
    | nil => simp at hi
    | cons o os =>
      simp only [List.get?_cons_zero, Option.some_inj] at hi
      subst hi
      simp only [retryFetchGo]
      rw [if_neg (by omega)]
      simp
  | succ i ih =>
    intro outcomes retry s r hlt hpre hi
    cases outcomes with
    | nil => simp at hi
    | cons o os =>
      obtain ⟨s0, r0, h0⟩ := hpre 0 (Nat.succ_pos _)
      simp only [List.get?_cons_zero, Option.some_inj] at h0
      subst h0
      simp only [retryFetchGo]
      rw [if_neg (by omega)]
      simp only [List.get?_cons_succ] at hi
      have hrec := ih os (retry + 1) s r (by omega)
        (fun j hj => by
          have := hpre (j + 1) (by omega)
          simpa using this) hi
      have harith : retry + 1 + i = retry + (i + 1) := by omega
      rw [harith] at hrec
      simpa using hrec

/-- C8: the retry helper around a single page fetch makes at most 5
    attempts, and the sleep after a failed attempt i (0-based) is
    max(serverRetryAfter * 1000, 2000 * (i+1)) for a rate-limit error
    (status 429, retry_after defaulting to 1000 when absent or zero) and
    1000 * 2^i for any other error; the verification refetch loop makes at
    most 3 attempts (consumes at most 3 transport responses). -/
theorem C8_retry_budget_and_backoff :
    (∀ outcomes : List FetchOutcome, (retryFetch outcomes).attempts ≤ 5)
    ∧ (∀ (outcomes : List FetchOutcome) (i status : Nat) (rAfter : Option Nat),
        i < 5 →
        (∀ j, j < i → ∃ s' r', outcomes.get? j = some (.err s' r')) →
        outcomes.get? i = some (.err status rAfter) →
        (retryFetch outcomes).sleeps.get? i
          = some (if status = 429
              then max (jsOrDefault rAfter 1000 * 1000) (2000 * (i + 1))
              else 1000 * 2 ^ i))
    ∧ (∀ trace : List FetchResult,
        trace.length ≤ (verifyScan trace 3).2.length + 3) := by
  refine ⟨?_, ?_, fun t => verifyScan_consumes_le t 3⟩
  · intro outcomes
    simpa using retryFetchGo_attempts_le 5 outcomes 0
  · intro outcomes i s r hi hpre hget
    have := retryFetchGo_sleeps 5 i outcomes 0 s r (by omega) hpre hget
    simpa [retryDelay] using this

theorem C8_witness :
    (retryFetch [.err 429 (some 3), .err 500 none, .ok []]).attempts ≤ 5
    ∧ (retryFetch [.err 429 (some 3), .err 500 none, .ok []]).sleeps.get? 0
      = some 3000
    ∧ (retryFetch [.err 429 (some 3), .err 500 none, .ok []]).sleeps.get? 1
      = some 2000
    ∧ ([some [], none, some [], none] : List FetchResult).length
      ≤ (verifyScan [some [], none, some [], none] 3).2.length + 3 := by
  refine ⟨C8_retry_budget_and_backoff.1 _, ?_, ?_,
    C8_retry_budget_and_backoff.2.2 _⟩
  · have := C8_retry_budget_and_backoff.2.1 [.err 429 (some 3), .err 500 none, .ok []]
      0 429 (some 3) (by omega) (by intro j hj; omega) rfl
    simpa using this
  · have := C8_retry_budget_and_backoff.2.1 [.err 429 (some 3), .err 500 none, .ok []]
      1 500 none (by omega) ?_ rfl
    · simpa using this
    · intro j hj
      interval_cases j
      · exact ⟨429, some 3, rfl⟩

/-! ### C10 — boundary modes dispatch to the range extractor -/

/-- C10: whenever discovery is invoked with an afterId or beforeId boundary,
    it dispatches to the range extractor with only the author filter and the
    two boundaries: the result does not depend on countLimit or on the
    progress callback, the progress callback is never invoked, and the
    returned records are exactly those of the range extractor. -/
theorem C10_boundary_dispatch :
    ∀ (stop : Bool) (userId afterId beforeId : Option String)
      (lim lim' : Option Nat) (prog prog' : Bool) (trace : List FetchResult),
      afterId.isSome ∨ beforeId.isSome →
      discoverMessages stop userId afterId beforeId lim prog trace
        = discoverMessages stop userId afterId beforeId lim' prog' trace
      ∧ (discoverMessages stop userId afterId beforeId lim prog trace).progress = []
      ∧ (stop = false →
          (discoverMessages stop userId afterId beforeId lim prog trace).messages
            = discoverRangeMessages false userId afterId beforeId trace) := by
  intro stop u a b lim lim' prog prog' trace hab
  have hcond : (a.isSome || b.isSome) = true := by
    rcases hab with h | h <;> simp [h]
  cases stop
  · simp [discoverMessages, hcond]
  · simp [discoverMessages]

theorem C10_boundary_dispatch_witness :
    (discoverMessages false none (some "5") none (some 1) true
        [some [⟨"9", some "a"⟩, ⟨"7", some "b"⟩]]).progress = []
    ∧ (discoverMessages false none (some "5") none (some 1) true
        [some [⟨"9", some "a"⟩, ⟨"7", some "b"⟩]]).messages.length = 2 :=
  ⟨(C10_boundary_dispatch false none (some "5") none (some 1) (some 1) true true
      [some [⟨"9", some "a"⟩, ⟨"7", some "b"⟩]] (Or.inl rfl)).2.1,
   by decide⟩

/-! ### C9 — forward progress of the unbounded pagination loop -/

theorem procMsgs_none_match (u : String) (limit : Option Nat) :
    ∀ (ms msgs : List Message) (seen : List String),
      (∀ m ∈ ms, m.author ≠ some u) →
      (procMsgs false (some u) limit ms msgs seen).1 = msgs := by
  intro ms
  induction ms with
  | nil => intro msgs seen _; rfl
  | cons m ms ih =>
    intro msgs seen hmiss
    have hm : authorMatches (some u) m = false := by
      simp [authorMatches]
      exact hmiss m (List.mem_cons_self _ _)
    rw [procMsgs]
    rw [if_neg (by simp : ¬(false = true))]
    split
    · exact ih msgs seen (fun x hx => hmiss x (List.mem_cons_of_mem _ hx))
    · rw [hm]
      simp only [Bool.false_eq_true, if_false]
      exact ih msgs (m.id :: seen) (fun x hx => hmiss x (List.mem_cons_of_mem _ hx))

theorem reportProgress_lastMessageId (prog : Bool) (st1 : DState) :
    (reportProgress prog st1).lastMessageId = st1.lastMessageId := by
  unfold reportProgress
  split <;> rfl

theorem reportProgress_messages (prog : Bool) (st1 : DState) :
    (reportProgress prog st1).messages = st1.messages := by
  unfold reportProgress
  split <;> rfl

/-- When the oldest id of the consumed non-empty page equals the current
    cursor, the iteration tail breaks out of the while-loop. -/
theorem afterBatch_nonadvance (limit : Option Nat) (prog : Bool) (st1 : DState)
    (batch : List Message) (rest' : List FetchResult) (hne : batch ≠ [])
    (hcursor : st1.lastMessageId = some ((batch.getLast hne).id)) :
    afterBatch limit prog st1 batch rest' = (reportProgress prog st1, none) := by
  unfold afterBatch
  rw [List.getLast?_eq_getLast batch hne]
  dsimp only
  rw [if_pos (by rw [reportProgress_lastMessageId]; exact hcursor)]

/-- C9: (1) when the oldest id of a fetched non-empty page equals the
    current cursor, the unbounded walk stops right after consuming that page
    and returns the accumulated result, never touching the remainder of the
    transport trace; (2) the cursor always advances to the oldest id
    observed in the page even when no record of the page passes the author
    filter (in which case nothing is collected). -/
theorem C9_nonadvancing_cursor :
    (∀ (userId : Option String) (prog : Bool) (fuel fuel' : Nat) (st : DState)
        (batch : List Message) (rest : List FetchResult) (hne : batch ≠ []),
        st.lastMessageId = some ((batch.getLast hne).id) →
        discoverLoop false userId none prog (fuel + 1) st (some batch :: rest)
          = discoverLoop false userId none prog (fuel' + 1) st [some batch])
    ∧ (∀ (u : String) (prog : Bool) (batch : List Message) (hne : batch ≠ []),
        (∀ m ∈ batch, m.author ≠ some u) →
        (discoverRun false (some u) none prog [some batch]).lastMessageId
          = some ((batch.getLast hne).id)
        ∧ (discoverRun false (some u) none prog [some batch]).messages = []) := by
  constructor
  · intro userId prog fuel fuel' st batch rest hne hcursor
    have hbe : batch.isEmpty = false := by
      cases batch with
      | nil => exact absurd rfl hne
      | cons x xs => rfl
    have hacq : ∀ r : List FetchResult, acquirePage st (some batch) r
        = .proc { st with consecutiveErrors := 0, emptyBatchCount := 0 } batch r := by
      intro r
      simp [acquirePage, hbe]
    rw [discoverLoop, discoverLoop]
    simp only [Bool.false_eq_true, if_false, limitReached]
    rw [hacq, hacq]
    rcases hproc : procMsgs false userId none batch st.messages st.seen
      with ⟨msgs', seen', ret⟩
    have hret : ret = false := by
      have := procMsgs_not_returned userId none batch st.messages st.seen
      rw [hproc] at this
      exact this
    subst hret
    simp only [hproc, Bool.false_eq_true, if_false]
    rw [afterBatch_nonadvance none prog
        { st with consecutiveErrors := 0, emptyBatchCount := 0,
                  messages := msgs', seen := seen' } batch rest hne hcursor,
      afterBatch_nonadvance none prog
        { st with consecutiveErrors := 0, emptyBatchCount := 0,
                  messages := msgs', seen := seen' } batch [] hne hcursor]
  · intro u prog batch hne hmiss
    have hbe : batch.isEmpty = false := by
      cases batch with
      | nil => exact absurd rfl hne
      | cons x xs => rfl
    rcases hproc : procMsgs false (some u) none batch [] [] with ⟨msgs', seen', ret⟩
    have hret : ret = false := by
      have := procMsgs_not_returned (some u) none batch ([] : List Message) []
      rw [hproc] at this
      exact this
    subst hret
    have hmsgs : msgs' = [] := by
      have := procMsgs_none_match u none batch [] [] hmiss
      rw [hproc] at this
      exact this
    subst hmsgs
    unfold discoverRun
    rw [discoverLoop]
    simp only [Bool.false_eq_true, if_false, limitReached]
    have hacq : acquirePage DState.init (some batch) []
        = .proc DState.init batch [] := by
      simp [acquirePage, hbe]
      rfl
    rw [hacq]
    simp only [DState.init] at hproc ⊢
    rw [hproc]
    simp only [Bool.false_eq_true, if_false]
    unfold afterBatch
    rw [List.getLast?_eq_getLast batch hne]
    dsimp only
    rw [if_neg (by rw [reportProgress_lastMessageId]; simp)]
    by_cases hlt : batch.length < BATCH_SIZE
    · rw [if_pos hlt]
      simp [verifyScan, reportProgress]
    · rw [if_neg hlt]
      simp only [limitReached, Bool.false_eq_true, if_false]
      simp [reportProgress, discoverLoop]

theorem C9_nonadvancing_cursor_witness :
    discoverLoop false none none false 3
        { DState.init with lastMessageId := some "7" }
        [some [⟨"9", some "a"⟩, ⟨"7", some "a"⟩], some [⟨"5", some "a"⟩]]
      = discoverLoop false none none false 1
        { DState.init with lastMessageId := some "7" }
        [some [⟨"9", some "a"⟩, ⟨"7", some "a"⟩]]
    ∧ (discoverRun false (some "u") none false
        [some [⟨"9", some "a"⟩, ⟨"7", some "b"⟩]]).lastMessageId = some "7"
    ∧ (discoverRun false (some "u") none false
        [some [⟨"9", some "a"⟩, ⟨"7", some "b"⟩]]).messages = [] := by
  have h2 := C9_nonadvancing_cursor.2 "u" false
    [⟨"9", some "a"⟩, ⟨"7", some "b"⟩] (by decide) (by decide)
  refine ⟨C9_nonadvancing_cursor.1 none false 2 0
      { DState.init with lastMessageId := some "7" }
      [⟨"9", some "a"⟩, ⟨"7", some "a"⟩] [some [⟨"5", some "a"⟩]]
      (by decide) (by decide), (h2.1).trans (by decide), h2.2⟩

theorem acquirePage_fields (st : DState) (r : FetchResult) (rest : List FetchResult) :
    match acquirePage st r rest with
    | .halt st' => st'.messages = st.messages ∧ st'.seen = st.seen
    | .again st' => st'.messages = st.messages ∧ st'.seen = st.seen
    | .proc st' _ _ => st'.messages = st.messages ∧ st'.seen = st.seen := by
  unfold acquirePage
  cases r with
  | none =>
    dsimp only
    by_cases hce : MAX_CONSECUTIVE_ERRORS ≤ st.consecutiveErrors + 1
    · rw [if_pos hce]; exact ⟨rfl, rfl⟩
    · rw [if_neg hce]; exact ⟨rfl, rfl⟩
  | some batch =>
    dsimp only
    by_cases hbe : batch.isEmpty = true
    · rw [if_pos hbe]
      by_cases he3 : 3 ≤ st.emptyBatchCount + 1
      · rw [if_pos he3]
        by_cases hl : st.lastMessageId.isSome = true
        · rw [if_pos hl]
          rcases hv : verifyScan rest 3 with ⟨vb, rest2⟩
          cases vb
          · exact ⟨rfl, rfl⟩
          · exact ⟨rfl, rfl⟩
        · rw [if_neg hl]; exact ⟨rfl, rfl⟩
      · rw [if_neg he3]; exact ⟨rfl, rfl⟩
    · rw [if_neg hbe]; exact ⟨rfl, rfl⟩

theorem rangeAcquire_fields (st : RState) (r : FetchResult) (rest : List FetchResult) :
    match rangeAcquire st r rest with
    | .halt st' => st'.messages = st.messages ∧ st'.seen = st.seen
        ∧ st'.collecting = st.collecting ∧ st'.foundBoundary = st.foundBoundary
    | .again st' => st'.messages = st.messages ∧ st'.seen = st.seen
        ∧ st'.collecting = st.collecting ∧ st'.foundBoundary = st.foundBoundary
    | .proc st' _ _ => st'.messages = st.messages ∧ st'.seen = st.seen
        ∧ st'.collecting = st.collecting ∧ st'.foundBoundary = st.foundBoundary := by
  unfold rangeAcquire
  cases r with
  | none => exact ⟨rfl, rfl, rfl, rfl⟩
  | some batch =>
    dsimp only
    by_cases hbe : batch.isEmpty = true
    · rw [if_pos hbe]
      by_cases he3 : 3 ≤ st.emptyBatchCount + 1
      · rw [if_pos he3]
        by_cases hl : st.lastMessageId.isSome = true
        · rw [if_pos hl]
          rcases hv : verifyScan rest 3 with ⟨vb, rest2⟩
          cases vb
          · exact ⟨rfl, rfl, rfl, rfl⟩
          · exact ⟨rfl, rfl, rfl, rfl⟩
        · rw [if_neg hl]; exact ⟨rfl, rfl, rfl, rfl⟩
      · rw [if_neg he3]; exact ⟨rfl, rfl, rfl, rfl⟩
    · rw [if_neg hbe]; exact ⟨rfl, rfl, rfl, rfl⟩

theorem procMsgs_invariant (stop : Bool) (u : Option String) (lim : Option Nat) :
    ∀ (ms msgs : List Message) (seen : List String),
      (∀ m ∈ msgs, m.id ∈ seen) → (msgs.map Message.id).Nodup →
      (∀ m ∈ (procMsgs stop u lim ms msgs seen).1,
          m.id ∈ (procMsgs stop u lim ms msgs seen).2.1)
      ∧ ((procMsgs stop u lim ms msgs seen).1.map Message.id).Nodup := by
  intro ms
  induction ms with
  | nil => intro msgs seen h1 h2; exact ⟨h1, h2⟩
  | cons m ms ih =>
    intro msgs seen h1 h2
    rw [procMsgs]
    split
    · exact ⟨h1, h2⟩
    · split
      · exact ih msgs seen h1 h2
      · rename_i hstop hseen
        have hfresh : m.id ∉ msgs.map Message.id := by
          intro hmem
          rcases List.mem_map.mp hmem with ⟨x, hx, hxid⟩
          exact hseen (hxid ▸ h1 x hx)
        have h1' : ∀ x ∈ msgs ++ [m], x.id ∈ m.id :: seen := by
          intro x hx
          rcases List.mem_append.mp hx with hx | hx
          · exact List.mem_cons_of_mem _ (h1 x hx)
          · simp at hx
            subst hx
            exact List.mem_cons_self _ _
        have h2' : ((msgs ++ [m]).map Message.id).Nodup := by
          rw [List.map_append]
          apply List.Nodup.append h2 (by simp)
          intro x hx hy
          simp at hy
          subst hy
          exact hfresh hx
        split
        · split
          · exact ⟨h1', h2'⟩
          · exact ih (msgs ++ [m]) (m.id :: seen) h1' h2'
        · exact ih msgs (m.id :: seen)
            (fun x hx => List.mem_cons_of_mem _ (h1 x hx)) h2

theorem procRange_invariant (stop : Bool) (u a b : Option String) :
    ∀ (ms : List Message) (st : RState),
      (∀ m ∈ st.messages, m.id ∈ st.seen) → (st.messages.map Message.id).Nodup →
      (∀ m ∈ (procRange stop u a b ms st).messages,
          m.id ∈ (procRange stop u a b ms st).seen)
      ∧ ((procRange stop u a b ms st).messages.map Message.id).Nodup := by
  intro ms
  induction ms with
  | nil => intro st h1 h2; exact ⟨h1, h2⟩
  | cons m ms ih =>
    intro st h1 h2
    rw [procRange]
    have hmono : ∀ x ∈ st.messages, x.id ∈ m.id :: st.seen :=
      fun x hx => List.mem_cons_of_mem _ (h1 x hx)
    split
    · exact ⟨h1, h2⟩
    · split
      · exact ih st h1 h2
      · split
        · exact ⟨hmono, h2⟩
        · split
          · split
            · exact ih _ hmono h2
            · exact ih _ hmono h2
          · split
            · exact ih _ hmono h2
            · split
              · exact ⟨hmono, h2⟩
              · rename_i hstop hseen hc1 hc2 hc3 hc4
                split
                · rename_i hcol
                  have hfresh : m.id ∉ st.messages.map Message.id := by
                    intro hmem
                    rcases List.mem_map.mp hmem with ⟨x, hx, hxid⟩
                    exact hseen (hxid ▸ h1 x hx)
                  refine ih _ ?_ ?_
                  · intro x hx
                    rcases List.mem_append.mp hx with hx | hx
                    · exact List.mem_cons_of_mem _ (h1 x hx)
                    · simp at hx
                      subst hx
                      exact List.mem_cons_self _ _
                  · show ((st.messages ++ [m]).map Message.id).Nodup
                    rw [List.map_append]
                    apply List.Nodup.append h2 (by simp)
                    intro x hx hy
                    simp at hy
                    subst hy
                    exact hfresh hx
                · exact ih _ hmono h2

theorem reportProgress_seen (prog : Bool) (st1 : DState) :
    (reportProgress prog st1).seen = st1.seen := by
  unfold reportProgress
  split <;> rfl

theorem afterBatch_fields (limit : Option Nat) (prog : Bool) (st1 : DState)
    (batch : List Message) (rest' : List FetchResult) :
    (afterBatch limit prog st1 batch rest').1.messages = st1.messages
    ∧ (afterBatch limit prog st1 batch rest').1.seen = st1.seen := by
  unfold afterBatch
  cases batch.getLast? with
  | none => exact ⟨reportProgress_messages _ _, reportProgress_seen _ _⟩
  | some lastMsg =>
    dsimp only
    split
    · exact ⟨reportProgress_messages _ _, reportProgress_seen _ _⟩
    · split
      · rcases hv : verifyScan rest' 3 with ⟨vb, rest2⟩
        cases vb with
        | none => exact ⟨reportProgress_messages _ _, reportProgress_seen _ _⟩
        | some v =>
          dsimp only
          by_cases hl : limitReached limit st1.messages.length = true
          · rw [if_pos hl]
            exact ⟨reportProgress_messages _ _, reportProgress_seen _ _⟩
          · rw [if_neg hl]
            exact ⟨reportProgress_messages _ _, reportProgress_seen _ _⟩
      · by_cases hl : limitReached limit st1.messages.length = true
        · rw [if_pos hl]
          exact ⟨reportProgress_messages _ _, reportProgress_seen _ _⟩
        · rw [if_neg hl]
          exact ⟨reportProgress_messages _ _, reportProgress_seen _ _⟩

theorem afterRangeBatch_fst (a b : Option String) (st1 : RState)
    (batch : List Message) (rest' : List FetchResult) :
    (afterRangeBatch a b st1 batch rest').1 = st1 := by
  unfold afterRangeBatch
  split
  · rfl
  · split
    · rfl
    · split
      · rfl
      · split
        · rcases hv : verifyScan rest' 3 with ⟨vb, rest2⟩
          cases vb <;> rfl
        · rfl

theorem discoverLoop_invariant (stop : Bool) (u : Option String) (lim : Option Nat)
    (prog : Bool) :
    ∀ (fuel : Nat) (st : DState) (trace : List FetchResult),
      (∀ m ∈ st.messages, m.id ∈ st.seen) → (st.messages.map Message.id).Nodup →
      (∀ m ∈ (discoverLoop stop u lim prog fuel st trace).messages,
          m.id ∈ (discoverLoop stop u lim prog fuel st trace).seen)
      ∧ ((discoverLoop stop u lim prog fuel st trace).messages.map Message.id).Nodup := by
  intro fuel
  induction fuel with
  | zero => intro st trace h1 h2; exact ⟨h1, h2⟩
  | succ fuel ih =>
    intro st trace h1 h2
    simp only [discoverLoop]
    split
    · exact ⟨h1, h2⟩
    · split
      · exact ⟨h1, h2⟩
      · split
        · exact ⟨h1, h2⟩
        · rename_i r rest
          have hf := acquirePage_fields st r rest
          split
          · rename_i st' heq
            rw [heq] at hf
            exact ⟨by rw [hf.1, hf.2]; exact h1, by rw [hf.1]; exact h2⟩
          · rename_i st' heq
            rw [heq] at hf
            exact ih st' rest (by rw [hf.1, hf.2]; exact h1) (by rw [hf.1]; exact h2)
          · rename_i st' batch rest' heq
            rw [heq] at hf
            have h1' : ∀ m ∈ st'.messages, m.id ∈ st'.seen := by
              rw [hf.1, hf.2]; exact h1
            have h2' : (st'.messages.map Message.id).Nodup := by
              rw [hf.1]; exact h2
            have hpm := procMsgs_invariant stop u lim batch st'.messages st'.seen h1' h2'
            rcases hproc : procMsgs stop u lim batch st'.messages st'.seen
              with ⟨msgs', seen', ret⟩
            rw [hproc] at hpm
            dsimp only at hpm
            simp only [hproc]
            split
            · exact ⟨hpm.1, hpm.2⟩
            · have hab := afterBatch_fields lim prog
                { st' with messages := msgs', seen := seen' } batch rest'
              split
              · rename_i st3 heq3
                rw [heq3] at hab
                dsimp only at hab
                exact ⟨by rw [hab.1, hab.2]; exact hpm.1, by rw [hab.1]; exact hpm.2⟩
              · rename_i st3 rest2 heq3
                rw [heq3] at hab
                dsimp only at hab
                exact ih st3 rest2 (by rw [hab.1, hab.2]; exact hpm.1)
                  (by rw [hab.1]; exact hpm.2)

theorem rangeLoop_invariant (stop : Bool) (u a b : Option String) :
    ∀ (fuel : Nat) (st : RState) (trace : List FetchResult),
      (∀ m ∈ st.messages, m.id ∈ st.seen) → (st.messages.map Message.id).Nodup →
      (∀ m ∈ (rangeLoop stop u a b fuel st trace).messages,
          m.id ∈ (rangeLoop stop u a b fuel st trace).seen)
      ∧ ((rangeLoop stop u a b fuel st trace).messages.map Message.id).Nodup := by
  intro fuel
  induction fuel with
  | zero => intro st trace h1 h2; exact ⟨h1, h2⟩
  | succ fuel ih =>
    intro st trace h1 h2
    simp only [rangeLoop]
    split
    · exact ⟨h1, h2⟩
    · split
      · exact ⟨h1, h2⟩
      · rename_i r rest
        have hf := rangeAcquire_fields st r rest
        split
        · rename_i st' heq
          rw [heq] at hf
          exact ⟨by rw [hf.1, hf.2.1]; exact h1, by rw [hf.1]; exact h2⟩
        · rename_i st' heq
          rw [heq] at hf
          exact ih st' rest (by rw [hf.1, hf.2.1]; exact h1) (by rw [hf.1]; exact h2)
        · rename_i st' batch rest' heq
          rw [heq] at hf
          have h1' : ∀ m ∈ st'.messages, m.id ∈ st'.seen := by
            rw [hf.1, hf.2.1]; exact h1
          have h2' : (st'.messages.map Message.id).Nodup := by
            rw [hf.1]; exact h2
          have hpr := procRange_invariant stop u a b batch st' h1' h2'
          have hfst := afterRangeBatch_fst a b
            (procRange stop u a b batch st') batch rest'
          split
          · rename_i st1 heq1
            rw [heq1] at hfst
            dsimp only at hfst
            rw [hfst]
            exact hpr
          · rename_i st1 rest2 heq1
            rw [heq1] at hfst
            dsimp only at hfst
            subst hfst
            exact ih _ rest2 hpr.1 hpr.2

/-- C3: for every discovery run — the plain pagination engine as well as the
    range extractor, over any transport trace, including overlapping or
    repeated pages — the returned record list contains no two entries with
    the same id. -/
theorem C3_no_duplicate_ids (stop : Bool) (userId afterId beforeId : Option String)
    (lim : Option Nat) (prog : Bool) (trace : List FetchResult) :
    ((discoverMessages stop userId afterId beforeId lim prog trace).messages.map
        Message.id).Nodup := by
  unfold discoverMessages
  split
  · simp
  · split
    · unfold discoverRangeMessages rangeRun
      exact (rangeLoop_invariant stop userId afterId beforeId _ (RState.init afterId beforeId)
        trace (by intro m hm; simp [RState.init] at hm) (by simp [RState.init])).2
    · exact (discoverLoop_invariant stop userId lim prog _ DState.init trace
        (by intro m hm; simp [DState.init] at hm) (by simp [DState.init])).2

/-! ### The flat boundary machine: procRange without paging or dedup -/

/-- The record-level boundary machine of the range extractor run over a flat
    newest-to-oldest stream, without paging and dedup (procRange reduces to
    it on fresh, duplicate-free input): the collected records, the final
    collecting and foundBoundary flags, and whether the walk terminated at
    the after boundary.  Used only to state characterization lemmas about
    discoverRangeMessages. -/
def rangeFlatRun (userId afterId beforeId : Option String) :
    Bool → Bool → List Message → List Message × Bool × Bool × Bool
  | c, f, [] => ([], c, f, false)
  | c, f, m :: ms =>
    if afterId.isSome ∧ beforeId = none ∧ afterId = some m.id then
      ([], false, true, true)
    else if beforeId.isSome ∧ afterId = none ∧ f = false then
      if beforeId = some m.id then rangeFlatRun userId afterId beforeId true true ms
      else rangeFlatRun userId afterId beforeId c f ms
    else if afterId.isSome ∧ beforeId.isSome ∧ beforeId = some m.id then
      rangeFlatRun userId afterId beforeId true true ms
    else if afterId.isSome ∧ beforeId.isSome ∧ afterId = some m.id then
      ([], false, true, true)
    else if c && authorMatches userId m then
      (m :: (rangeFlatRun userId afterId beforeId c f ms).1,
       (rangeFlatRun userId afterId beforeId c f ms).2)
    else rangeFlatRun userId afterId beforeId c f ms

theorem procRange_flat (u a b : Option String) :
    ∀ (p : List Message) (st : RState),
      (∀ m ∈ p, m.id ∉ st.seen) → (p.map Message.id).Nodup →
      (procRange false u a b p st).messages
        = st.messages ++ (rangeFlatRun u a b st.collecting st.foundBoundary p).1
      ∧ (procRange false u a b p st).collecting
        = (rangeFlatRun u a b st.collecting st.foundBoundary p).2.1
      ∧ (procRange false u a b p st).foundBoundary
        = (rangeFlatRun u a b st.collecting st.foundBoundary p).2.2.1
      ∧ (procRange false u a b p st).emptyBatchCount = st.emptyBatchCount
      ∧ (∀ x, x ∈ (procRange false u a b p st).seen →
          x ∈ st.seen ∨ x ∈ p.map Message.id) := by
  intro p
  induction p with
  | nil =>
    intro st _ _
    exact ⟨by simp [procRange, rangeFlatRun], rfl, rfl, rfl, fun x hx => Or.inl hx⟩
  | cons m ms ih =>
    intro st hfresh hnodup
    have hm : m.id ∉ st.seen := hfresh m (List.mem_cons_self _ _)
    have hcons : m.id ∉ ms.map Message.id ∧ (ms.map Message.id).Nodup := by
      rw [List.map_cons, List.nodup_cons] at hnodup
      exact hnodup
    have hmid : m.id ∉ ms.map Message.id := hcons.1
    have hnodup' : (ms.map Message.id).Nodup := hcons.2
    have hfresh' : ∀ x ∈ ms, x.id ∉ m.id :: st.seen := by
      intro x hx
      simp only [List.mem_cons, not_or]
      exact ⟨fun heq => hmid (List.mem_map.mpr ⟨x, hx, heq⟩),
             hfresh x (List.mem_cons_of_mem _ hx)⟩
    have hstep : ∀ st2 : RState, st2.seen = m.id :: st.seen →
        (∀ x, x ∈ (procRange false u a b ms st2).seen →
          x ∈ st2.seen ∨ x ∈ ms.map Message.id) →
        (∀ x, x ∈ (procRange false u a b ms st2).seen →
          x ∈ st.seen ∨ x ∈ (m :: ms).map Message.id) := by
      intro st2 hs2 hsub x hx
      rcases hsub x hx with hx2 | hx2
      · rw [hs2] at hx2
        rcases List.mem_cons.mp hx2 with hx3 | hx3
        · exact Or.inr (by simp [hx3])
        · exact Or.inl hx3
      · exact Or.inr (List.mem_cons_of_mem _ hx2)
    rw [procRange, rangeFlatRun]
    rw [if_neg (by simp : ¬(false = true)), if_neg hm]
    by_cases h1 : a.isSome ∧ b = none ∧ a = some m.id
    · rw [if_pos h1, if_pos h1]
      refine ⟨by simp, rfl, rfl, rfl, ?_⟩
      intro x hx
      rcases List.mem_cons.mp hx with hx | hx
      · exact Or.inr (by simp [hx])
      · exact Or.inl hx
    · rw [if_neg h1, if_neg h1]
      by_cases h2 : b.isSome ∧ a = none ∧ st.foundBoundary = false
      · rw [if_pos h2, if_pos h2]
        by_cases h2b : b = some m.id
        · rw [if_pos h2b, if_pos h2b]
          have hx := ih ⟨st.messages, m.id :: st.seen, some m.id, true, true, st.emptyBatchCount⟩ hfresh' hnodup'
          exact ⟨hx.1, hx.2.1, hx.2.2.1, hx.2.2.2.1, hstep _ rfl hx.2.2.2.2⟩
        · rw [if_neg h2b, if_neg h2b]
          have hx := ih ⟨st.messages, m.id :: st.seen, some m.id, st.collecting, st.foundBoundary, st.emptyBatchCount⟩ hfresh' hnodup'
          exact ⟨hx.1, hx.2.1, hx.2.2.1, hx.2.2.2.1, hstep _ rfl hx.2.2.2.2⟩
      · rw [if_neg h2, if_neg h2]
        by_cases h3 : a.isSome ∧ b.isSome ∧ b = some m.id
        · rw [if_pos h3, if_pos h3]
          have hx := ih ⟨st.messages, m.id :: st.seen, some m.id, true, true, st.emptyBatchCount⟩ hfresh' hnodup'
          exact ⟨hx.1, hx.2.1, hx.2.2.1, hx.2.2.2.1, hstep _ rfl hx.2.2.2.2⟩
        · rw [if_neg h3, if_neg h3]
          by_cases h4 : a.isSome ∧ b.isSome ∧ a = some m.id
          · rw [if_pos h4, if_pos h4]
            refine ⟨by simp, rfl, rfl, rfl, ?_⟩
            intro x hx
            rcases List.mem_cons.mp hx with hx | hx
            · exact Or.inr (by simp [hx])
            · exact Or.inl hx
          · rw [if_neg h4, if_neg h4]
            by_cases h5 : (st.collecting && authorMatches u m) = true
            · rw [if_pos h5, if_pos h5]
              have hx := ih ⟨st.messages ++ [m], m.id :: st.seen, some m.id, st.collecting, st.foundBoundary, st.emptyBatchCount⟩ hfresh' hnodup'
              refine ⟨?_, hx.2.1, hx.2.2.1, hx.2.2.2.1, hstep _ rfl hx.2.2.2.2⟩
              rw [hx.1]
              simp
            · rw [if_neg h5, if_neg h5]
              have hx := ih ⟨st.messages, m.id :: st.seen, some m.id, st.collecting, st.foundBoundary, st.emptyBatchCount⟩ hfresh' hnodup'
              exact ⟨hx.1, hx.2.1, hx.2.2.1, hx.2.2.2.1, hstep _ rfl hx.2.2.2.2⟩

theorem rangeFlatRun_terminated (u a b : Option String) :
    ∀ (xs : List Message) (c f : Bool),
      (rangeFlatRun u a b c f xs).2.2.2 = true →
      a.isSome = true
      ∧ (rangeFlatRun u a b c f xs).2.1 = false
      ∧ (rangeFlatRun u a b c f xs).2.2.1 = true := by
  intro xs
  induction xs with
  | nil =>
    intro c f h
    simp [rangeFlatRun] at h
  | cons m ms ih =>
    intro c f h
    rw [rangeFlatRun] at h ⊢
    by_cases h1 : a.isSome ∧ b = none ∧ a = some m.id
    · rw [if_pos h1] at h ⊢
      exact ⟨h1.1, rfl, rfl⟩
    · rw [if_neg h1] at h ⊢
      by_cases h2 : b.isSome ∧ a = none ∧ f = false
      · rw [if_pos h2] at h ⊢
        by_cases h2b : b = some m.id
        · rw [if_pos h2b] at h ⊢
          exact ih _ _ h
        · rw [if_neg h2b] at h ⊢
          exact ih _ _ h
      · rw [if_neg h2] at h ⊢
        by_cases h3 : a.isSome ∧ b.isSome ∧ b = some m.id
        · rw [if_pos h3] at h ⊢
          exact ih _ _ h
        · rw [if_neg h3] at h ⊢
          by_cases h4 : a.isSome ∧ b.isSome ∧ a = some m.id
          · rw [if_pos h4] at h ⊢
            exact ⟨h4.1, rfl, rfl⟩
          · rw [if_neg h4] at h ⊢
            by_cases h5 : (c && authorMatches u m) = true
            · rw [if_pos h5] at h ⊢
              dsimp only at h ⊢
              exact ih _ _ h
            · rw [if_neg h5] at h ⊢
              exact ih _ _ h

theorem rangeFlatRun_fc (u a b : Option String) :
    ∀ (xs : List Message) (c f : Bool), (f = true → c = true) →
      (rangeFlatRun u a b c f xs).2.2.2 = false →
      (rangeFlatRun u a b c f xs).2.2.1 = true →
      (rangeFlatRun u a b c f xs).2.1 = true := by
  intro xs
  induction xs with
  | nil =>
    intro c f hfc _ hf
    exact hfc hf
  | cons m ms ih =>
    intro c f hfc ht hf
    rw [rangeFlatRun] at ht hf ⊢
    by_cases h1 : a.isSome ∧ b = none ∧ a = some m.id
    · rw [if_pos h1] at ht
      simp at ht
    · rw [if_neg h1] at ht hf ⊢
      by_cases h2 : b.isSome ∧ a = none ∧ f = false
      · rw [if_pos h2] at ht hf ⊢
        by_cases h2b : b = some m.id
        · rw [if_pos h2b] at ht hf ⊢
          exact ih _ _ (fun _ => rfl) ht hf
        · rw [if_neg h2b] at ht hf ⊢
          exact ih _ _ hfc ht hf
      · rw [if_neg h2] at ht hf ⊢
        by_cases h3 : a.isSome ∧ b.isSome ∧ b = some m.id
        · rw [if_pos h3] at ht hf ⊢
          exact ih _ _ (fun _ => rfl) ht hf
        · rw [if_neg h3] at ht hf ⊢
          by_cases h4 : a.isSome ∧ b.isSome ∧ a = some m.id
          · rw [if_pos h4] at ht
            simp at ht
          · rw [if_neg h4] at ht hf ⊢
            by_cases h5 : (c && authorMatches u m) = true
            · rw [if_pos h5] at ht hf ⊢
              dsimp only at ht hf ⊢
              exact ih _ _ hfc ht hf
            · rw [if_neg h5] at ht hf ⊢
              exact ih _ _ hfc ht hf

theorem rangeFlatRun_append (u a b : Option String) :
    ∀ (xs ys : List Message) (c f : Bool),
      ((rangeFlatRun u a b c f xs).2.2.2 = true →
        (rangeFlatRun u a b c f (xs ++ ys)).1 = (rangeFlatRun u a b c f xs).1)
      ∧ ((rangeFlatRun u a b c f xs).2.2.2 = false →
        (rangeFlatRun u a b c f (xs ++ ys)).1
          = (rangeFlatRun u a b c f xs).1
            ++ (rangeFlatRun u a b (rangeFlatRun u a b c f xs).2.1
                (rangeFlatRun u a b c f xs).2.2.1 ys).1) := by
  intro xs
  induction xs with
  | nil =>
    intro ys c f
    constructor
    · intro h
      simp [rangeFlatRun] at h
    · intro _
      simp [rangeFlatRun]
  | cons m ms ih =>
    intro ys c f
    rw [List.cons_append]
    constructor
    all_goals intro h
    all_goals rw [rangeFlatRun] at h
    all_goals rw [rangeFlatRun, rangeFlatRun]
    all_goals by_cases h1 : a.isSome ∧ b = none ∧ a = some m.id
    · rw [if_pos h1] at h ⊢
      rw [if_pos h1]
    · rw [if_neg h1] at h ⊢
      rw [if_neg h1]
      by_cases h2 : b.isSome ∧ a = none ∧ f = false
      · rw [if_pos h2] at h ⊢
        rw [if_pos h2]
        by_cases h2b : b = some m.id
        · rw [if_pos h2b] at h ⊢
          rw [if_pos h2b]
          exact (ih ys true true).1 h
        · rw [if_neg h2b] at h ⊢
          rw [if_neg h2b]
          exact (ih ys c f).1 h
      · rw [if_neg h2] at h ⊢
        rw [if_neg h2]
        by_cases h3 : a.isSome ∧ b.isSome ∧ b = some m.id
        · rw [if_pos h3] at h ⊢
          rw [if_pos h3]
          exact (ih ys true true).1 h
        · rw [if_neg h3] at h ⊢
          rw [if_neg h3]
          by_cases h4 : a.isSome ∧ b.isSome ∧ a = some m.id
          · rw [if_pos h4] at h ⊢
            rw [if_pos h4]
          · rw [if_neg h4] at h ⊢
            rw [if_neg h4]
            by_cases h5 : (c && authorMatches u m) = true
            · rw [if_pos h5] at h ⊢
              rw [if_pos h5]
              dsimp only at h ⊢
              rw [(ih ys c f).1 h]
            · rw [if_neg h5] at h ⊢
              rw [if_neg h5]
              exact (ih ys c f).1 h
    · rw [if_pos h1] at h
      simp at h
    · rw [if_neg h1] at h ⊢
      rw [if_neg h1]
      by_cases h2 : b.isSome ∧ a = none ∧ f = false
      · rw [if_pos h2] at h ⊢
        rw [if_pos h2]
        by_cases h2b : b = some m.id
        · rw [if_pos h2b] at h ⊢
          rw [if_pos h2b]
          exact (ih ys true true).2 h
        · rw [if_neg h2b] at h ⊢
          rw [if_neg h2b]
          exact (ih ys c f).2 h
      · rw [if_neg h2] at h ⊢
        rw [if_neg h2]
        by_cases h3 : a.isSome ∧ b.isSome ∧ b = some m.id
        · rw [if_pos h3] at h ⊢
          rw [if_pos h3]
          exact (ih ys true true).2 h
        · rw [if_neg h3] at h ⊢
          rw [if_neg h3]
          by_cases h4 : a.isSome ∧ b.isSome ∧ a = some m.id
          · rw [if_pos h4] at h
            simp at h
          · rw [if_neg h4] at h ⊢
            rw [if_neg h4]
            by_cases h5 : (c && authorMatches u m) = true
            · rw [if_pos h5] at h ⊢
              rw [if_pos h5]
              dsimp only at h ⊢
              rw [(ih ys c f).2 h, List.cons_append]
            · rw [if_neg h5] at h ⊢
              rw [if_neg h5]
              exact (ih ys c f).2 h

/-- The range extractor over a trace of successful pages in which every page
    but the last is full (the shape a consistent paginated history produces:
    no short-page verification ever finds more data) behaves exactly like
    the flat boundary machine run over the concatenated stream. -/
theorem rangeLoop_pages (u a b : Option String) :
    ∀ (pages : List (List Message)) (fuel : Nat) (st : RState),
      pages.length < fuel →
      (∀ p ∈ pages.dropLast, p.length = BATCH_SIZE) →
      (∀ m ∈ pages.flatten, m.id ∉ st.seen) →
      ((pages.flatten).map Message.id).Nodup →
      st.emptyBatchCount = 0 →
      (st.foundBoundary = true → st.collecting = true) →
      (rangeLoop false u a b fuel st (pages.map some)).messages
        = st.messages
          ++ (rangeFlatRun u a b st.collecting st.foundBoundary (pages.flatten)).1 := by
  intro pages
  induction pages with
  | nil =>
    intro fuel st hfuel _ _ _ _ _
    cases fuel with
    | zero => simp at hfuel
    | succ fuel => simp [rangeLoop, rangeFlatRun]
  | cons p ps ih =>
    intro fuel st hfuel hfull hfresh hnodup hebc hfc
    cases fuel with
    | zero => simp at hfuel
    | succ fuel =>
      simp only [List.map_cons, rangeLoop, Bool.false_eq_true, if_false]
      by_cases hpe : p = []
      · subst hpe
        have hps : ps = [] := by
          cases ps with
          | nil => rfl
          | cons q qs =>
            have := hfull [] (by simp)
            simp [BATCH_SIZE] at this
        subst hps
        have hacq : rangeAcquire st (some []) ([] : List FetchResult)
            = .again { st with emptyBatchCount := st.emptyBatchCount + 1 } := by
          simp [rangeAcquire, hebc]
        simp only [List.map_nil] at hacq ⊢
        rw [hacq]
        cases fuel with
        | zero => simp at hfuel
        | succ fuel => simp [rangeLoop, rangeFlatRun]
      · have hbe : ([] : List Message).isEmpty = true := rfl
        have hbe' : p.isEmpty = false := by
          cases p with
          | nil => exact absurd rfl hpe
          | cons x xs => rfl
        have hacq : rangeAcquire st (some p) (ps.map some)
            = .proc { st with emptyBatchCount := 0 } p (ps.map some) := by
          simp [rangeAcquire, hbe']
        rw [hacq]
        have hsteq : ({ st with emptyBatchCount := 0 } : RState) = st := by
          rw [← hebc]
        rw [hsteq]
        have hfreshp : ∀ m ∈ p, m.id ∉ st.seen := by
          intro m hm
          exact hfresh m (by simp [List.flatten_cons, hm])
        have hnodupp : (p.map Message.id).Nodup := by
          rw [List.flatten_cons, List.map_append, List.nodup_append] at hnodup
          exact hnodup.1
        have hpf := procRange_flat u a b p st hfreshp hnodupp
        rcases hpf with ⟨hmsg1, hcol1, hfb1, hebc1, hseen1⟩
        cases ht : (rangeFlatRun u a b st.collecting st.foundBoundary p).2.2.2 with
        | true =>
          have hterm := rangeFlatRun_terminated u a b p st.collecting st.foundBoundary ht
          have hcond : a.isSome = true
              ∧ (procRange false u a b p st).foundBoundary = true
              ∧ (procRange false u a b p st).collecting = false := by
            exact ⟨hterm.1, by rw [hfb1]; exact hterm.2.2, by rw [hcol1]; exact hterm.2.1⟩
          simp only [afterRangeBatch]
          rw [if_pos hcond]
          dsimp only
          rw [hmsg1, List.flatten_cons]
          rw [(rangeFlatRun_append u a b p ps.flatten st.collecting st.foundBoundary).1 ht]
        | false =>
          have hncond1 : ¬(a.isSome = true
              ∧ (procRange false u a b p st).foundBoundary = true
              ∧ (procRange false u a b p st).collecting = false) := by
            rintro ⟨ha, hfb, hcol⟩
            rw [hfb1] at hfb
            rw [hcol1] at hcol
            rw [rangeFlatRun_fc u a b p st.collecting st.foundBoundary hfc ht hfb] at hcol
            simp at hcol
          have hncond2 : ¬(a.isSome = true ∧ b.isSome = true
              ∧ (procRange false u a b p st).foundBoundary = true
              ∧ (procRange false u a b p st).collecting = false) := by
            rintro ⟨ha, _, hfb, hcol⟩
            exact hncond1 ⟨ha, hfb, hcol⟩
          simp only [afterRangeBatch]
          rw [if_neg hncond1, if_neg hncond2]
          by_cases hlen : p.length < BATCH_SIZE
          · have hps : ps = [] := by
              cases ps with
              | nil => rfl
              | cons q qs =>
                have := hfull p (by simp)
                omega
            subst hps
            have hjoin : ([p] : List (List Message)).flatten = p := by simp
            by_cases hcond3 : b.isSome = true ∧ a = none
                ∧ (procRange false u a b p st).foundBoundary = false ∧ p.length < BATCH_SIZE
            · rw [if_pos hcond3]
              rw [hmsg1, hjoin]
            · rw [if_neg hcond3, if_pos hlen]
              simp only [List.map_nil, verifyScan]
              rw [hmsg1, hjoin]
          · rw [if_neg (by rintro ⟨_, _, _, hl⟩; exact hlen hl), if_neg hlen]
            have hfull' : ∀ q ∈ ps.dropLast, q.length = BATCH_SIZE := by
              intro q hq
              apply hfull
              cases ps with
              | nil => simp at hq
              | cons r rs =>
                rw [List.dropLast_cons₂]
                exact List.mem_cons_of_mem _ hq
            have hdisj : ∀ m ∈ ps.flatten, m.id ∉ (p.map Message.id) := by
              intro m hm hid
              rw [List.flatten_cons, List.map_append, List.nodup_append] at hnodup
              exact hnodup.2.2 hid (List.mem_map.mpr ⟨m, hm, rfl⟩)
            have hfresh' : ∀ m ∈ ps.flatten, m.id ∉ (procRange false u a b p st).seen := by
              intro m hm hin
              rcases hseen1 m.id hin with hin' | hin'
              · exact hfresh m (by rw [List.flatten_cons]; exact List.mem_append_right _ hm) hin'
              · exact hdisj m hm hin'
            have hnodup' : ((ps.flatten).map Message.id).Nodup := by
              rw [List.flatten_cons, List.map_append, List.nodup_append] at hnodup
              exact hnodup.2.1
            have hebc' : (procRange false u a b p st).emptyBatchCount = 0 := by
              rw [hebc1]; exact hebc
            have hfc' : (procRange false u a b p st).foundBoundary = true →
                (procRange false u a b p st).collecting = true := by
              intro hfb
              rw [hfb1] at hfb
              rw [hcol1]
              exact rangeFlatRun_fc u a b p st.collecting st.foundBoundary hfc ht hfb
            have hrec := ih fuel (procRange false u a b p st)
              (by simpa using Nat.lt_of_succ_lt_succ hfuel) hfull' hfresh' hnodup' hebc' hfc'
            rw [hrec]
            rw [hmsg1, hcol1, hfb1, List.flatten_cons]
            rw [(rangeFlatRun_append u a b p ps.flatten st.collecting st.foundBoundary).2 ht]
            rw [List.append_assoc]

theorem rangeFlatRun_afterOnly (u : Option String) (B : String) :
    ∀ xs : List Message,
      (rangeFlatRun u (some B) none true false xs).1
        = (xs.takeWhile (fun m => !(m.id == B))).filter (authorMatches u) := by
  intro xs
  induction xs with
  | nil => simp [rangeFlatRun]
  | cons m ms ih =>
    rw [rangeFlatRun]
    by_cases hB : m.id = B
    · rw [if_pos ⟨rfl, rfl, by rw [hB]⟩]
      have : (!(m.id == B)) = false := by simp [hB]
      simp [List.takeWhile_cons, this]
    · rw [if_neg (by rintro ⟨-, -, h⟩; exact hB (Option.some_inj.mp h).symm)]
      rw [if_neg (by rintro ⟨-, h, -⟩; simp at h)]
      rw [if_neg (by rintro ⟨-, h, -⟩; simp at h)]
      rw [if_neg (by rintro ⟨-, h, -⟩; simp at h)]
      have hpred : (!(m.id == B)) = true := by simp [hB]
      by_cases hm : authorMatches u m = true
      · rw [if_pos (by simp [hm])]
        dsimp only
        rw [ih]
        simp [List.takeWhile_cons, hpred, List.filter_cons, hm]
      · rw [if_neg (by simp [hm])]
        rw [ih]
        simp [List.takeWhile_cons, hpred, List.filter_cons, hm]

theorem rangeFlatRun_collectUntil (u : Option String) (A B : String) (hAB : A ≠ B) :
    ∀ (ys : List Message) (zs : List Message) (amsg : Message), amsg.id = A →
      (∀ y ∈ ys, y.id ≠ A) → (∀ y ∈ ys, y.id ≠ B) →
      (rangeFlatRun u (some A) (some B) true true (ys ++ amsg :: zs)).1
        = ys.filter (authorMatches u) := by
  intro ys
  induction ys with
  | nil =>
    intro zs amsg ha _ _
    rw [List.nil_append, rangeFlatRun]
    rw [if_neg (by rintro ⟨-, h, -⟩; simp at h)]
    rw [if_neg (by rintro ⟨-, h, -⟩; simp at h)]
    rw [if_neg (by rintro ⟨-, -, h⟩; exact hAB ((Option.some_inj.mp h).trans ha).symm)]
    rw [if_pos ⟨rfl, rfl, by rw [ha]⟩]
    simp
  | cons y ys ih =>
    intro zs amsg ha hyA hyB
    have hA : y.id ≠ A := hyA y (List.mem_cons_self _ _)
    have hB : y.id ≠ B := hyB y (List.mem_cons_self _ _)
    rw [List.cons_append, rangeFlatRun]
    rw [if_neg (by rintro ⟨-, h, -⟩; simp at h)]
    rw [if_neg (by rintro ⟨-, h, -⟩; simp at h)]
    rw [if_neg (by rintro ⟨-, -, h⟩; exact hB (Option.some_inj.mp h).symm)]
    rw [if_neg (by rintro ⟨-, -, h⟩; exact hA (Option.some_inj.mp h).symm)]
    have hrec := ih zs amsg ha (fun x hx => hyA x (List.mem_cons_of_mem _ hx))
      (fun x hx => hyB x (List.mem_cons_of_mem _ hx))
    by_cases hm : authorMatches u y = true
    · rw [if_pos (by simp [hm])]
      dsimp only
      rw [hrec]
      simp [List.filter_cons, hm]
    · rw [if_neg (by simp [hm])]
      rw [hrec]
      simp [List.filter_cons, hm]

theorem rangeFlatRun_preBoundary (u : Option String) (A B : String) :
    ∀ (xs tail : List Message) (bmsg : Message), bmsg.id = B →
      (∀ x ∈ xs, x.id ≠ A) → (∀ x ∈ xs, x.id ≠ B) →
      rangeFlatRun u (some A) (some B) false false (xs ++ bmsg :: tail)
        = rangeFlatRun u (some A) (some B) true true tail := by
  intro xs
  induction xs with
  | nil =>
    intro tail bmsg hb _ _
    rw [List.nil_append, rangeFlatRun]
    rw [if_neg (by rintro ⟨-, h, -⟩; simp at h)]
    rw [if_neg (by rintro ⟨-, h, -⟩; simp at h)]
    rw [if_pos ⟨rfl, rfl, by rw [hb]⟩]
  | cons x xs ih =>
    intro tail bmsg hb hxA hxB
    have hA : x.id ≠ A := hxA x (List.mem_cons_self _ _)
    have hB : x.id ≠ B := hxB x (List.mem_cons_self _ _)
    rw [List.cons_append, rangeFlatRun]
    rw [if_neg (by rintro ⟨-, h, -⟩; simp at h)]
    rw [if_neg (by rintro ⟨-, h, -⟩; simp at h)]
    rw [if_neg (by rintro ⟨-, -, h⟩; exact hB (Option.some_inj.mp h).symm)]
    rw [if_neg (by rintro ⟨-, -, h⟩; exact hA (Option.some_inj.mp h).symm)]
    rw [if_neg (by simp)]
    exact ih tail bmsg hb (fun y hy => hxA y (List.mem_cons_of_mem _ hy))
      (fun y hy => hxB y (List.mem_cons_of_mem _ hy))

/-! ### C1 — after-only boundary semantics -/

/-- C1 counterexample: with an after-only boundary B that never occurs in
    the channel history, the result is NOT the empty list — the walk never
    deactivates and collects the entire history (here the single record
    with id 9, boundary B = 5). -/
theorem C1_counterexample :
    (discoverMessages false none (some "5") none none false
        [some [⟨"9", some "a"⟩]]).messages = [⟨"9", some "a"⟩]
    ∧ (discoverMessages false none (some "5") none none false
        [some [⟨"9", some "a"⟩]]).messages ≠ [] := by
  decide

/-- C1 (amended): for an after-only boundary B over a consistently paged
    history (every page but the last full, no duplicate ids), the result is
    exactly the author-filtered prefix of the newest-to-oldest stream
    strictly before the first occurrence of B — so every returned record is
    newer than B and B itself is excluded; when no record with id B exists
    in the history the takeWhile is the whole stream: the result is the
    entire filtered history, not the empty list. -/
theorem C1_after_only_boundary (userId : Option String) (B : String)
    (lim : Option Nat) (prog : Bool) (pages : List (List Message))
    (hfull : ∀ p ∈ pages.dropLast, p.length = BATCH_SIZE)
    (hnodup : ((pages.flatten).map Message.id).Nodup) :
    (discoverMessages false userId (some B) none lim prog (pages.map some)).messages
      = ((pages.flatten).takeWhile (fun m => !(m.id == B))).filter
          (authorMatches userId) := by
  have hrun : (discoverMessages false userId (some B) none lim prog
      (pages.map some)).messages
      = (rangeLoop false userId (some B) none ((pages.map some).length + 1)
          (RState.init (some B) none) (pages.map some)).messages := by
    simp [discoverMessages, discoverRangeMessages, rangeRun]
  rw [hrun]
  rw [rangeLoop_pages userId (some B) none pages ((pages.map some).length + 1)
    (RState.init (some B) none) (by simp) hfull
    (by intro m _; simp [RState.init]) hnodup rfl
    (by intro h; simp [RState.init] at h)]
  have hinit : (RState.init (some B) none).collecting = true := rfl
  have hinitf : (RState.init (some B) none).foundBoundary = false := rfl
  rw [hinit, hinitf, rangeFlatRun_afterOnly]
  simp [RState.init]

theorem C1_after_only_boundary_witness :
    (discoverMessages false none (some "5") none none false
        [some [⟨"9", some "a"⟩, ⟨"5", some "a"⟩, ⟨"3", some "a"⟩]]).messages
      = (([⟨"9", some "a"⟩, ⟨"5", some "a"⟩, ⟨"3", some "a"⟩] :
            List Message).takeWhile (fun m => !(m.id == "5"))).filter
          (authorMatches none) := by
  have := C1_after_only_boundary none "5" none false
    [[⟨"9", some "a"⟩, ⟨"5", some "a"⟩, ⟨"3", some "a"⟩]]
    (by intro p hp; simp at hp) (by decide)
  simpa using this

/-! ### C2 — range (after + before) boundary semantics -/

theorem procRange_noBefore (u : Option String) (A B : String) :
    ∀ (p : List Message) (st : RState), st.collecting = false →
      (∀ m ∈ p, m.id ≠ B) →
      (procRange false u (some A) (some B) p st).messages = st.messages
      ∧ (procRange false u (some A) (some B) p st).collecting = false := by
  intro p
  induction p with
  | nil => intro st hc _; exact ⟨rfl, hc⟩
  | cons m ms ih =>
    intro st hc hB
    have hmB : m.id ≠ B := hB m (List.mem_cons_self _ _)
    have hB' : ∀ x ∈ ms, x.id ≠ B := fun x hx => hB x (List.mem_cons_of_mem _ hx)
    rw [procRange]
    rw [if_neg (by simp : ¬(false = true))]
    split
    · exact ih st hc hB'
    · rw [if_neg (by rintro ⟨-, h, -⟩; simp at h)]
      rw [if_neg (by rintro ⟨-, h, -⟩; simp at h)]
      rw [if_neg (by rintro ⟨-, -, h⟩; exact hmB (Option.some_inj.mp h).symm)]
      by_cases h4 : (some A : Option String).isSome = true
          ∧ (some B : Option String).isSome = true ∧ (some A : Option String) = some m.id
      · rw [if_pos h4]
        exact ⟨rfl, rfl⟩
      · rw [if_neg h4]
        rw [if_neg (by simp [hc])]
        exact ih _ hc hB'

theorem rangeAcquire_proc_src (st : RState) (r : FetchResult) (rest : List FetchResult) :
    match rangeAcquire st r rest with
    | .proc _ batch rest2 => (r = some batch ∨ some batch ∈ rest) ∧ ∀ x ∈ rest2, x ∈ rest
    | _ => True := by
  unfold rangeAcquire
  cases r with
  | none => trivial
  | some batch =>
    dsimp only
    by_cases hbe : batch.isEmpty = true
    · rw [if_pos hbe]
      by_cases he3 : 3 ≤ st.emptyBatchCount + 1
      · rw [if_pos he3]
        by_cases hl : st.lastMessageId.isSome = true
        · rw [if_pos hl]
          rcases hv : verifyScan rest 3 with ⟨vb, rest2⟩
          cases vb with
          | none => trivial
          | some v =>
            refine ⟨Or.inr ?_, ?_⟩
            · exact verifyScan_fst_mem rest 3 v (by rw [hv])
            · intro x hx
              exact verifyScan_snd_subset rest 3 x (by rw [hv]; exact hx)
        · rw [if_neg hl]; trivial
      · rw [if_neg he3]; trivial
    · rw [if_neg hbe]
      exact ⟨Or.inl rfl, fun x hx => hx⟩

theorem afterRangeBatch_snd_subset (a b : Option String) (st1 : RState)
    (batch : List Message) (rest' : List FetchResult) :
    match (afterRangeBatch a b st1 batch rest').2 with
    | some rest2 => ∀ x ∈ rest2, x ∈ rest'
    | none => True := by
  unfold afterRangeBatch
  by_cases h1 : a.isSome = true ∧ st1.foundBoundary = true ∧ st1.collecting = false
  · rw [if_pos h1]; trivial
  · rw [if_neg h1]
    by_cases h2 : a.isSome = true ∧ b.isSome = true ∧ st1.foundBoundary = true
        ∧ st1.collecting = false
    · rw [if_pos h2]; trivial
    · rw [if_neg h2]
      by_cases h3 : b.isSome = true ∧ a = none ∧ st1.foundBoundary = false
          ∧ batch.length < BATCH_SIZE
      · rw [if_pos h3]; trivial
      · rw [if_neg h3]
        by_cases h4 : batch.length < BATCH_SIZE
        · rw [if_pos h4]
          rcases hv : verifyScan rest' 3 with ⟨vb, r2⟩
          cases vb with
          | none => trivial
          | some v =>
            dsimp only
            intro x hx
            exact verifyScan_snd_subset rest' 3 x (by rw [hv]; exact hx)
        · rw [if_neg h4]
          dsimp only
          intro x hx
          exact hx

theorem rangeLoop_noBefore (u : Option String) (A B : String) :
    ∀ (fuel : Nat) (st : RState) (trace : List FetchResult),
      st.collecting = false →
      (∀ r ∈ trace, ∀ p : List Message, r = some p → ∀ m ∈ p, m.id ≠ B) →
      (rangeLoop false u (some A) (some B) fuel st trace).messages = st.messages := by
  intro fuel
  induction fuel with
  | zero => intro st trace _ _; rfl
  | succ fuel ih =>
    intro st trace hc htrace
    simp only [rangeLoop]
    split
    · rfl
    · split
      · rfl
      · rename_i r rest
        have hfld := rangeAcquire_fields st r rest
        have hsrc := rangeAcquire_proc_src st r rest
        have hrest : ∀ r' ∈ rest, ∀ p : List Message, r' = some p → ∀ m ∈ p, m.id ≠ B :=
          fun r' hr' => htrace r' (List.mem_cons_of_mem _ hr')
        split
        · rename_i st' heq
          rw [heq] at hfld
          exact hfld.1
        · rename_i st' heq
          rw [heq] at hfld
          rw [ih st' rest (by rw [hfld.2.2.1]; exact hc) hrest, hfld.1]
        · rename_i st' batch rest' heq
          rw [heq] at hfld hsrc
          have hbatch : ∀ m ∈ batch, m.id ≠ B := by
            rcases hsrc.1 with hsrc1 | hsrc1
            · exact htrace r (List.mem_cons_self _ _) batch hsrc1
            · exact hrest _ hsrc1 batch rfl
          have hpn := procRange_noBefore u A B batch st'
            (by rw [hfld.2.2.1]; exact hc) hbatch
          have hrest' : ∀ r' ∈ rest', ∀ p : List Message, r' = some p →
              ∀ m ∈ p, m.id ≠ B :=
            fun r' hr' => hrest r' (hsrc.2 r' hr')
          have hfst := afterRangeBatch_fst (some A) (some B)
            (procRange false u (some A) (some B) batch st') batch rest'
          split
          · rename_i st1 heq1
            rw [heq1] at hfst
            dsimp only at hfst
            rw [hfst, hpn.1, hfld.1]
          · rename_i st1 rest2 heq1
            rw [heq1] at hfst
            dsimp only at hfst
            subst hfst
            have hsub := afterRangeBatch_snd_subset (some A) (some B)
              (procRange false u (some A) (some B) batch st') batch rest'
            rw [heq1] at hsub
            dsimp only at hsub
            rw [ih _ rest2 hpn.2 (fun r' hr' => hrest' r' (hsub r' hr'))]
            rw [hpn.1, hfld.1]

/-- C2 counterexample: for a range with after = 9 and before = 3, where 9 is
    newer than 3 and the record with id 5 lies strictly between them, the
    extractor returns the empty list (collection only ever activates at the
    before boundary, which in a newest-first walk is reached after the after
    boundary has already broken the walk), not the between record. -/
theorem C2_counterexample :
    (discoverMessages false none (some "9") (some "3") none false
        [some [⟨"9", some "a"⟩, ⟨"5", some "a"⟩, ⟨"3", some "a"⟩]]).messages = []
    ∧ (discoverMessages false none (some "9") (some "3") none false
        [some [⟨"9", some "a"⟩, ⟨"5", some "a"⟩, ⟨"3", some "a"⟩]]).messages
      ≠ [⟨"5", some "a"⟩] := by
  decide

/-- C2 (amended): for range discovery with both boundaries (after = A,
    before = B), over a consistently paged duplicate-free history in which
    the record with id B appears first (B newer than A, matching the
    newest-first walk), the returned set is exactly the author-filtered
    records strictly between the B record and the A record, both boundary
    records excluded; and whenever the record with id B never appears in
    the walked stream, the result is empty even if the record with id A
    does appear (collection never activates). -/
theorem C2_range_boundaries (u : Option String) (A B : String)
    (lim : Option Nat) (prog : Bool) :
    (∀ (pages : List (List Message)) (xs ys zs : List Message)
        (bmsg amsg : Message),
        (∀ p ∈ pages.dropLast, p.length = BATCH_SIZE) →
        ((pages.flatten).map Message.id).Nodup →
        pages.flatten = xs ++ bmsg :: (ys ++ amsg :: zs) →
        bmsg.id = B → amsg.id = A →
        (discoverMessages false u (some A) (some B) lim prog
            (pages.map some)).messages = ys.filter (authorMatches u))
    ∧ (∀ trace : List FetchResult,
        (∀ r ∈ trace, ∀ p : List Message, r = some p → ∀ m ∈ p, m.id ≠ B) →
        (discoverMessages false u (some A) (some B) lim prog trace).messages
          = []) := by
  constructor
  · intro pages xs ys zs bmsg amsg hfull hnodup hdecomp hb ha
    have h0 : (xs.map Message.id
        ++ (bmsg.id :: (ys.map Message.id ++ amsg.id :: zs.map Message.id))).Nodup := by
      have := hnodup
      rw [hdecomp] at this
      simpa using this
    rw [List.nodup_append] at h0
    obtain ⟨hxs, hrest, hdisj⟩ := h0
    rw [List.nodup_cons] at hrest
    obtain ⟨hbnotin, hinner⟩ := hrest
    rw [List.nodup_append] at hinner
    obtain ⟨hys, hcons, hdisj2⟩ := hinner
    have hAB : A ≠ B := by
      intro h
      apply hbnotin
      rw [hb, ← h, ← ha]
      exact List.mem_append_right _ (List.mem_cons_self _ _)
    have hxsA : ∀ x ∈ xs, x.id ≠ A := by
      intro x hx h
      exact hdisj (List.mem_map.mpr ⟨x, hx, rfl⟩)
        (by rw [h, ← ha]
            exact List.mem_cons_of_mem _ (List.mem_append_right _ (List.mem_cons_self _ _)))
    have hxsB : ∀ x ∈ xs, x.id ≠ B := by
      intro x hx h
      exact hdisj (List.mem_map.mpr ⟨x, hx, rfl⟩)
        (by rw [h, ← hb]; exact List.mem_cons_self _ _)
    have hysA : ∀ y ∈ ys, y.id ≠ A := by
      intro y hy h
      exact hdisj2 (List.mem_map.mpr ⟨y, hy, rfl⟩)
        (by rw [h, ← ha]; exact List.mem_cons_self _ _)
    have hysB : ∀ y ∈ ys, y.id ≠ B := by
      intro y hy h
      apply hbnotin
      rw [hb, ← h]
      exact List.mem_append_left _ (List.mem_map.mpr ⟨y, hy, rfl⟩)
    have hrun : (discoverMessages false u (some A) (some B) lim prog
        (pages.map some)).messages
        = (rangeLoop false u (some A) (some B) ((pages.map some).length + 1)
            (RState.init (some A) (some B)) (pages.map some)).messages := by
      simp [discoverMessages, discoverRangeMessages, rangeRun]
    rw [hrun]
    rw [rangeLoop_pages u (some A) (some B) pages ((pages.map some).length + 1)
      (RState.init (some A) (some B)) (by simp) hfull
      (by intro m _; simp [RState.init]) hnodup rfl
      (by intro h; simp [RState.init] at h)]
    have hinit : (RState.init (some A) (some B)).collecting = false := rfl
    have hinitf : (RState.init (some A) (some B)).foundBoundary = false := rfl
    rw [hinit, hinitf, hdecomp]
    rw [rangeFlatRun_preBoundary u A B xs (ys ++ amsg :: zs) bmsg hb hxsA hxsB]
    rw [rangeFlatRun_collectUntil u A B hAB ys zs amsg ha hysA hysB]
    simp [RState.init]
  · intro trace htrace
    have hrun : (discoverMessages false u (some A) (some B) lim prog trace).messages
        = (rangeLoop false u (some A) (some B) (trace.length + 1)
            (RState.init (some A) (some B)) trace).messages := by
      simp [discoverMessages, discoverRangeMessages, rangeRun]
    rw [hrun]
    rw [rangeLoop_noBefore u A B (trace.length + 1) (RState.init (some A) (some B))
      trace rfl htrace]
    rfl

theorem C2_range_boundaries_witness :
    (discoverMessages false none (some "3") (some "9") none false
        [some [⟨"9", some "a"⟩, ⟨"5", some "a"⟩, ⟨"3", some "a"⟩]]).messages
      = ([⟨"5", some "a"⟩] : List Message).filter (authorMatches none)
    ∧ (discoverMessages false none (some "9") (some "3") none false
        [some [⟨"9", some "a"⟩, ⟨"5", some "a"⟩]]).messages = [] := by
  constructor
  · have := (C2_range_boundaries none "3" "9" none false).1
      [[⟨"9", some "a"⟩, ⟨"5", some "a"⟩, ⟨"3", some "a"⟩]]
      [] [⟨"5", some "a"⟩] [] ⟨"9", some "a"⟩ ⟨"3", some "a"⟩
      (by intro p hp; simp at hp) (by decide) (by decide) rfl rfl
    simpa using this
  · apply (C2_range_boundaries none "9" "3" none false).2
    intro r hr p hp m hm
    rcases List.mem_singleton.mp hr with rfl
    have hp' : ([⟨"9", some "a"⟩, ⟨"5", some "a"⟩] : List Message) = p :=
      Option.some_inj.mp hp
    subst hp'
    fin_cases hm <;> decide

/-! ### C4 — bounded discovery returns at most N and exactly the N newest -/

theorem limitReached_false_iff {N len : Nat} (hN : 0 < N)
    (h : ¬ limitReached (some N) len = true) : len < N := by
  simp [limitReached] at h
  omega

theorem limitReached_true_iff {N len : Nat}
    (h : limitReached (some N) len = true) : N ≤ len := by
  simp [limitReached] at h
  exact h.2

theorem procMsgs_le (stop : Bool) (u : Option String) (N : Nat) :
    ∀ (ms msgs : List Message) (seen : List String),
      msgs.length < N →
      (procMsgs stop u (some N) ms msgs seen).1.length ≤ N := by
  intro ms
  induction ms with
  | nil => intro msgs seen h; exact Nat.le_of_lt h
  | cons m ms ih =>
    intro msgs seen h
    rw [procMsgs]
    split
    · exact Nat.le_of_lt h
    · split
      · exact ih msgs seen h
      · split
        · split
          · rename_i hreach
            simpa using h
          · rename_i hreach
            apply ih
            have hlt := limitReached_false_iff (by omega : 0 < N) hreach
            simpa using hlt
        · exact ih msgs (m.id :: seen) h

theorem reportProgress_emptyBatchCount (prog : Bool) (st1 : DState) :
    (reportProgress prog st1).emptyBatchCount = st1.emptyBatchCount := by
  unfold reportProgress
  split <;> rfl

theorem afterBatch_advance (limit : Option Nat) (prog : Bool) (st1 : DState)
    (p : List Message) (rest' : List FetchResult) (hne : p ≠ [])
    (hcur : ¬ st1.lastMessageId = some ((p.getLast hne).id)) :
    afterBatch limit prog st1 p rest'
      = ({ reportProgress prog st1 with lastMessageId := some ((p.getLast hne).id) },
         if p.length < BATCH_SIZE then
           match verifyScan rest' 3 with
           | (none, _) => none
           | (some _, rest'') =>
             if limitReached limit st1.messages.length then none else some rest''
         else if limitReached limit st1.messages.length then none else some rest') := by
  unfold afterBatch
  rw [List.getLast?_eq_getLast p hne]
  dsimp only
  rw [if_neg (by rw [reportProgress_lastMessageId]; exact hcur)]
  by_cases hlt : p.length < BATCH_SIZE
  · rw [if_pos hlt, if_pos hlt]
    rcases hv : verifyScan rest' 3 with ⟨vb, r2⟩
    cases vb
    · rfl
    · dsimp only
      by_cases hl : limitReached limit st1.messages.length = true
      · rw [if_pos hl, if_pos hl]
      · rw [if_neg hl, if_neg hl]
  · rw [if_neg hlt, if_neg hlt]
    by_cases hl : limitReached limit st1.messages.length = true
    · rw [if_pos hl, if_pos hl]
    · rw [if_neg hl, if_neg hl]

theorem discoverLoop_le (stop : Bool) (u : Option String) (N : Nat) (hN : 0 < N)
    (prog : Bool) :
    ∀ (fuel : Nat) (st : DState) (trace : List FetchResult),
      st.messages.length ≤ N →
      (discoverLoop stop u (some N) prog fuel st trace).messages.length ≤ N := by
  intro fuel
  induction fuel with
  | zero => intro st trace h; exact h
  | succ fuel ih =>
    intro st trace h
    simp only [discoverLoop]
    split
    · exact h
    · split
      · exact h
      · rename_i hnr
        have hlt : st.messages.length < N := limitReached_false_iff hN hnr
        split
        · exact h
        · rename_i r rest
          have hf := acquirePage_fields st r rest
          split
          · rename_i st' heq
            rw [heq] at hf
            rw [hf.1]
            exact h
          · rename_i st' heq
            rw [heq] at hf
            exact ih st' rest (by rw [hf.1]; exact h)
          · rename_i st' batch rest' heq
            rw [heq] at hf
            have hle : (procMsgs stop u (some N) batch st'.messages st'.seen).1.length ≤ N :=
              procMsgs_le stop u N batch st'.messages st'.seen (by rw [hf.1]; exact hlt)
            rcases hproc : procMsgs stop u (some N) batch st'.messages st'.seen
              with ⟨msgs', seen', ret⟩
            rw [hproc] at hle
            dsimp only at hle
            simp only [hproc]
            split
            · exact hle
            · have hab := afterBatch_fields (some N) prog
                { st' with messages := msgs', seen := seen' } batch rest'
              split
              · rename_i st3 heq3
                rw [heq3] at hab
                dsimp only at hab
                rw [hab.1]
                exact hle
              · rename_i st3 rest2 heq3
                rw [heq3] at hab
                dsimp only at hab
                exact ih st3 rest2 (by rw [hab.1]; exact hle)

theorem procMsgs_flat (u : Option String) (N : Nat) :
    ∀ (p msgs : List Message) (seen : List String),
      (∀ m ∈ p, m.id ∉ seen) → (p.map Message.id).Nodup →
      msgs.length < N →
      (procMsgs false u (some N) p msgs seen).1
        = msgs ++ (p.filter (authorMatches u)).take (N - msgs.length)
      ∧ (∀ x, x ∈ (procMsgs false u (some N) p msgs seen).2.1 →
          x ∈ seen ∨ x ∈ p.map Message.id) := by
  intro p
  induction p with
  | nil =>
    intro msgs seen _ _ _
    exact ⟨by simp [procMsgs], fun x hx => Or.inl hx⟩
  | cons m ms ih =>
    intro msgs seen hfresh hnodup hlen
    have hm : m.id ∉ seen := hfresh m (List.mem_cons_self _ _)
    have hcons : m.id ∉ ms.map Message.id ∧ (ms.map Message.id).Nodup := by
      rw [List.map_cons, List.nodup_cons] at hnodup
      exact hnodup
    have hfresh' : ∀ x ∈ ms, x.id ∉ m.id :: seen := by
      intro x hx
      simp only [List.mem_cons, not_or]
      exact ⟨fun heq => hcons.1 (List.mem_map.mpr ⟨x, hx, heq⟩),
             hfresh x (List.mem_cons_of_mem _ hx)⟩
    have hstep : ∀ r : List Message × List String × Bool,
        (∀ x, x ∈ r.2.1 → x ∈ m.id :: seen ∨ x ∈ ms.map Message.id) →
        (∀ x, x ∈ r.2.1 → x ∈ seen ∨ x ∈ (m :: ms).map Message.id) := by
      intro r hr x hx
      rcases hr x hx with hx' | hx'
      · rcases List.mem_cons.mp hx' with hx'' | hx''
        · exact Or.inr (by simp [hx''])
        · exact Or.inl hx''
      · exact Or.inr (List.mem_cons_of_mem _ hx')
    rw [procMsgs]
    rw [if_neg (by simp : ¬(false = true)), if_neg hm]
    by_cases hmatch : authorMatches u m = true
    · rw [if_pos hmatch]
      by_cases hreach : limitReached (some N) (msgs ++ [m]).length = true
      · rw [if_pos hreach]
        have hge := limitReached_true_iff hreach
        simp only [List.length_append, List.length_cons, List.length_nil] at hge
        have hNeq : N - msgs.length = 1 := by omega
        constructor
        · rw [List.filter_cons, if_pos (by simpa using hmatch), hNeq]
          simp
        · intro x hx
          rcases List.mem_cons.mp hx with hx' | hx'
          · exact Or.inr (by simp [hx'])
          · exact Or.inl hx'
      · rw [if_neg hreach]
        have hlen' : (msgs ++ [m]).length < N := by
          have := limitReached_false_iff (by omega : 0 < N) hreach
          simpa using this
        have hrec := ih (msgs ++ [m]) (m.id :: seen) hfresh' hcons.2 hlen'
        constructor
        · rw [hrec.1]
          rw [List.filter_cons, if_pos (by simpa using hmatch)]
          have hpos : 0 < N - msgs.length := by omega
          rw [show N - msgs.length = (N - (msgs ++ [m]).length) + 1 by simp; omega]
          rw [List.take_succ_cons]
          simp
        · exact hstep _ hrec.2
    · rw [if_neg hmatch]
      have hrec := ih msgs (m.id :: seen) hfresh' hcons.2 hlen
      constructor
      · rw [hrec.1]
        rw [List.filter_cons, if_neg (by simpa using hmatch)]
      · exact hstep _ hrec.2

/-- The plain pagination engine with a count limit over a trace of
    successful pages in which every page but the last is full behaves like
    filter-then-take over the concatenated newest-to-oldest stream. -/
theorem discoverLoop_pages (u : Option String) (N : Nat) (hN : 0 < N) (prog : Bool) :
    ∀ (pages : List (List Message)) (fuel : Nat) (st : DState),
      pages.length < fuel →
      (∀ p ∈ pages.dropLast, p.length = BATCH_SIZE) →
      (∀ m ∈ pages.flatten, m.id ∉ st.seen) →
      ((pages.flatten).map Message.id).Nodup →
      st.emptyBatchCount = 0 →
      (∀ c, st.lastMessageId = some c → c ∉ (pages.flatten).map Message.id) →
      st.messages.length < N →
      (discoverLoop false u (some N) prog fuel st (pages.map some)).messages
        = st.messages
          ++ ((pages.flatten).filter (authorMatches u)).take
              (N - st.messages.length) := by
  intro pages
  induction pages with
  | nil =>
    intro fuel st hfuel _ _ _ _ _ hlen
    cases fuel with
    | zero => simp at hfuel
    | succ fuel =>
      simp only [List.map_nil, discoverLoop]
      split
      · simp
      · split
        · simp
        · simp
  | cons p ps ih =>
    intro fuel st hfuel hfull hfresh hnodup hebc hcur hlen
    cases fuel with
    | zero => simp at hfuel
    | succ fuel =>
      simp only [List.map_cons, discoverLoop]
      rw [if_neg (by simp : ¬(false = true))]
      rw [if_neg (fun hc => absurd (limitReached_true_iff hc) (by omega))]
      by_cases hpe : p = []
      · subst hpe
        have hps : ps = [] := by
          cases ps with
          | nil => rfl
          | cons q qs =>
            have := hfull [] (by simp)
            simp [BATCH_SIZE] at this
        subst hps
        cases fuel with
        | zero => simp at hfuel
        | succ fuel =>
          simp [acquirePage, hebc, discoverLoop]
      · have hbe' : p.isEmpty = false := by
          cases p with
          | nil => exact absurd rfl hpe
          | cons x xs => rfl
        have hacq : acquirePage st (some p) (ps.map some)
            = .proc { st with consecutiveErrors := 0, emptyBatchCount := 0 }
                p (ps.map some) := by
          simp [acquirePage, hbe']
        rw [hacq]
        have hfreshp : ∀ m ∈ p, m.id ∉ st.seen := fun m hm =>
          hfresh m (by rw [List.flatten_cons]; exact List.mem_append_left _ hm)
        have hnodupp : (p.map Message.id).Nodup := by
          rw [List.flatten_cons, List.map_append, List.nodup_append] at hnodup
          exact hnodup.1
        have hpm := procMsgs_flat u N p st.messages st.seen hfreshp hnodupp hlen
        have hnr := procMsgs_not_returned u (some N) p st.messages st.seen
        rcases hproc : procMsgs false u (some N) p st.messages st.seen
          with ⟨msgs', seen', ret⟩
        rw [hproc] at hpm hnr
        dsimp only at hpm hnr
        subst hnr
        dsimp only
        rw [hproc]
        dsimp only
        rw [if_neg (by simp : ¬(false = true))]
        have hne : p ≠ [] := hpe
        have hlastp : p.getLast hne ∈ p := List.getLast_mem hne
        have hcur' : ¬ ({ st with consecutiveErrors := 0, emptyBatchCount := 0, messages := msgs', seen := seen' } : DState).lastMessageId
            = some ((p.getLast hne).id) := by
          dsimp only
          intro hc
          exact hcur _ hc (by
            rw [List.flatten_cons, List.map_append]
            exact List.mem_append_left _ (List.mem_map.mpr ⟨_, hlastp, rfl⟩))
        rw [afterBatch_advance (some N) prog _ p (ps.map some) hne hcur']
        have hmlen : msgs'.length
            = st.messages.length
              + min (N - st.messages.length) ((p.filter (authorMatches u)).length) := by
          rw [hpm.1]
          simp [List.length_take]
        by_cases hlt : p.length < BATCH_SIZE
        · have hps : ps = [] := by
            cases ps with
            | nil => rfl
            | cons q qs =>
              have := hfull p (by simp)
              omega
          subst hps
          rw [if_pos hlt]
          simp only [List.map_nil, verifyScan]
          rw [reportProgress_messages]
          dsimp only
          rw [hpm.1]
          simp
        · rw [if_neg hlt]
          by_cases hreach : limitReached (some N) (({ st with consecutiveErrors := 0, emptyBatchCount := 0, messages := msgs', seen := seen' } : DState)).messages.length = true
          · rw [if_pos hreach]
            dsimp only
            rw [reportProgress_messages]
            dsimp only
            have hge : N ≤ msgs'.length := limitReached_true_iff hreach
            have hfple : N - st.messages.length
                ≤ (p.filter (authorMatches u)).length := by omega
            rw [hpm.1, List.flatten_cons, List.filter_append,
              List.take_append_of_le_length hfple]
          · rw [if_neg hreach]
            dsimp only
            have hlt' : msgs'.length < N := by
              have := limitReached_false_iff hN hreach
              simpa using this
            have hfpeq : (p.filter (authorMatches u)).length
                ≤ N - st.messages.length := by omega
            have hmsgs : msgs' = st.messages ++ p.filter (authorMatches u) := by
              rw [hpm.1, List.take_of_length_le hfpeq]
            have hdisj : ∀ x ∈ (ps.flatten).map Message.id,
                x ∉ p.map Message.id := by
              intro x hx hx'
              rw [List.flatten_cons, List.map_append, List.nodup_append] at hnodup
              exact hnodup.2.2 hx' hx
            have hfull' : ∀ q ∈ ps.dropLast, q.length = BATCH_SIZE := by
              intro q hq
              apply hfull
              cases ps with
              | nil => simp at hq
              | cons r rs =>
                rw [List.dropLast_cons₂]
                exact List.mem_cons_of_mem _ hq
            have hrec := ih fuel
              { reportProgress prog { st with consecutiveErrors := 0, emptyBatchCount := 0, messages := msgs', seen := seen' } with lastMessageId := some ((p.getLast hne).id) }
              (by simpa using Nat.lt_of_succ_lt_succ hfuel) hfull'
              (by
                intro m hm hin
                rw [reportProgress_seen] at hin
                dsimp only at hin
                rcases hpm.2 m.id hin with hin' | hin'
                · exact hfresh m
                    (by rw [List.flatten_cons]; exact List.mem_append_right _ hm) hin'
                · exact hdisj m.id (List.mem_map.mpr ⟨m, hm, rfl⟩) hin')
              (by
                rw [List.flatten_cons, List.map_append, List.nodup_append] at hnodup
                exact hnodup.2.1)
              (by rw [reportProgress_emptyBatchCount])
              (by
                intro c hc hcin
                dsimp only at hc
                rw [Option.some_inj] at hc
                subst hc
                exact hdisj _ hcin (List.mem_map.mpr ⟨_, hlastp, rfl⟩))
              (by rw [reportProgress_messages]; exact hlt')
            rw [hrec]
            rw [reportProgress_messages]
            dsimp only
            rw [hmsgs, List.flatten_cons, List.filter_append,
              List.take_append_eq_append_take, List.take_of_length_le hfpeq,
              List.append_assoc]
            congr 2
            simp [List.length_append]
            omega

/-- C4: for a bounded discovery run with countLimit = N > 0 and no
    boundaries, (1) the returned list never has more than N records, over
    any transport trace; and (2) over a consistently paged duplicate-free
    history with at least N records matching the author filter, the result
    is exactly the N newest matching records (filter-then-take over the
    newest-to-oldest stream). -/
theorem C4_count_limit (u : Option String) (N : Nat) (hN : 0 < N) (prog : Bool) :
    (∀ trace : List FetchResult,
        (discoverMessages false u none none (some N) prog trace).messages.length ≤ N)
    ∧ (∀ pages : List (List Message),
        (∀ p ∈ pages.dropLast, p.length = BATCH_SIZE) →
        ((pages.flatten).map Message.id).Nodup →
        N ≤ ((pages.flatten).filter (authorMatches u)).length →
        (discoverMessages false u none none (some N) prog (pages.map some)).messages
          = ((pages.flatten).filter (authorMatches u)).take N) := by
  constructor
  · intro trace
    have hrw : (discoverMessages false u none none (some N) prog trace).messages
        = (discoverLoop false u (some N) prog (trace.length + 1)
            DState.init trace).messages := by
      simp [discoverMessages, discoverRun]
    rw [hrw]
    exact discoverLoop_le false u N hN prog _ DState.init trace
      (by simp [DState.init])
  · intro pages hfull hnodup hcount
    have hrw : (discoverMessages false u none none (some N) prog
        (pages.map some)).messages
        = (discoverLoop false u (some N) prog ((pages.map some).length + 1)
            DState.init (pages.map some)).messages := by
      simp [discoverMessages, discoverRun]
    rw [hrw]
    rw [discoverLoop_pages u N hN prog pages ((pages.map some).length + 1)
      DState.init (by simp) hfull (by intro m hm; simp [DState.init])
      hnodup rfl (by intro c hc; simp [DState.init] at hc)
      (by simp [DState.init]; omega)]
    simp [DState.init]

theorem C4_count_limit_witness :
    (discoverMessages false none none none (some 2) false
        [some [⟨"9", some "a"⟩, ⟨"7", some "b"⟩, ⟨"5", some "a"⟩]]).messages.length ≤ 2
    ∧ (discoverMessages false none none none (some 2) false
        [some [⟨"9", some "a"⟩, ⟨"7", some "b"⟩, ⟨"5", some "a"⟩]]).messages
      = (([⟨"9", some "a"⟩, ⟨"7", some "b"⟩, ⟨"5", some "a"⟩] : List Message).filter
          (authorMatches none)).take 2 := by
  constructor
  · exact (C4_count_limit none 2 (by omega) false).1 _
  · have := (C4_count_limit none 2 (by omega) false).2
      [[⟨"9", some "a"⟩, ⟨"7", some "b"⟩, ⟨"5", some "a"⟩]]
      (by intro p hp; simp at hp) (by decide) (by decide)
    simpa using this

end PurgeMessages
